import Mathlib

/-!
# Verification of the psce-cli key-derivation and secret-storage core

Shallow embedding of the wallet subsystem of `psce-cli`:

* `src/lib/wallet/utility.js` — `base58extracted`, `convertToBase58`,
  `getPubKeyFromPrivate`;
* `src/lib/wallet/isValidAddress.js` — `isValidAddress`;
* `src/lib/wallet/index.js` — `getAddressPrefix`, `isAddressForNetwork`;
* `src/lib/wallet/getMnemonic.js`, `rescuePrivateKey.js` — mnemonic
  conversion via the `bip39` library;
* `src/lib/security-manager.js` — the session / secret-store state machine.

JavaScript strings are modelled as `List Char`; byte buffers as `List Nat`
with every element `< 256`; machine words as `Nat` reduced `% 2^32` where
the JavaScript (or the native hash primitive) wraps.  The cryptographic hash
primitives used by the code (`sha256`, `ripemd160`, the base58 codec of
`@scure/base` / `bs58`, and secp256k1 point arithmetic from `elliptic`) are
embedded as executable Lean functions and validated against their published
test vectors below.
-/

set_option maxRecDepth 40000

deriving instance DecidableEq for Except

namespace Psce

/-- JavaScript strings are modelled as lists of characters. -/
abbrev Str := List Char

/-- UTF-8 encoding of one Unicode code point (what `Buffer.from(s, "utf8")`
and the hashing libraries do to each character of a JS string). -/
def utf8Char (c : Nat) : List Nat :=
  if c < 0x80 then [c]
  else if c < 0x800 then [0xC0 + c / 0x40, 0x80 + c % 0x40]
  else if c < 0x10000 then
    [0xE0 + c / 0x1000, 0x80 + c / 0x40 % 0x40, 0x80 + c % 0x40]
  else
    [0xF0 + c / 0x40000, 0x80 + c / 0x1000 % 0x40,
     0x80 + c / 0x40 % 0x40, 0x80 + c % 0x40]

/-- UTF-8 bytes of a modelled string. -/
def utf8 (s : Str) : List Nat := s.flatMap (fun c => utf8Char c.toNat)

/-- Value of a hexadecimal digit, `none` for a non-digit; the three branches
cover the digit, lower-case and upper-case code-point ranges. -/
def hexVal (c : Char) : Option Nat :=
  let n := c.toNat
  if 48 ≤ n ∧ n ≤ 57 then some (n - 48)
  else if 97 ≤ n ∧ n ≤ 102 then some (n - 87)
  else if 65 ≤ n ∧ n ≤ 70 then some (n - 55)
  else none

/-- Lower-case hex digit of a value `< 16`, by code point. -/
def hexDigit (n : Nat) : Char :=
  Char.ofNat (if n < 10 then 48 + n else 87 + n)

/-- Lower-case hex rendering of a byte list (two digits per byte), as
`Buffer.prototype.toString("hex")` produces. -/
def bytesToHex (bs : List Nat) : Str :=
  bs.flatMap (fun b => [hexDigit (b / 16 % 16), hexDigit (b % 16)])

/-- `Buffer.from(s, "hex")`: consume pairs of hex digits, silently stopping
at the first character pair that is not valid hex (Node's behaviour). -/
def hexToBytesJS : Str → List Nat
  | c1 :: c2 :: rest =>
    match hexVal c1, hexVal c2 with
    | some h, some l => (16 * h + l) :: hexToBytesJS rest
    | _, _ => []
  | _ => []

end Psce

namespace Psce.Sha256

/-- `2^32`, the word modulus of SHA-256. -/
def M32 : Nat := 4294967296

/-- Right rotation of a 32-bit word. -/
def rotr (n x : Nat) : Nat := ((x >>> n) ||| (x <<< (32 - n))) % M32

/-- The 64 SHA-256 round constants of FIPS 180-4, written in decimal. -/
def K : List Nat :=
  [1116352408, 1899447441, 3049323471, 3921009573, 961987163,
   1508970993, 2453635748, 2870763221, 3624381080, 310598401,
   607225278, 1426881987, 1925078388, 2162078206, 2614888103,
   3248222580, 3835390401, 4022224774, 264347078, 604807628,
   770255983, 1249150122, 1555081692, 1996064986, 2554220882,
   2821834349, 2952996808, 3210313671, 3336571891, 3584528711,
   113926993, 338241895, 666307205, 773529912, 1294757372,
   1396182291, 1695183700, 1986661051, 2177026350, 2456956037,
   2730485921, 2820302411, 3259730800, 3345764771, 3516065817,
   3600352804, 4094571909, 275423344, 430227734, 506948616,
   659060556, 883997877, 958139571, 1322822218, 1537002063,
   1747873779, 1955562222, 2024104815, 2227730452, 2361852424,
   2428436474, 2756734187, 3204031479, 3329325298]

/-- Hash state: the eight 32-bit working registers. -/
structure St where
  a : Nat
  b : Nat
  c : Nat
  d : Nat
  e : Nat
  f : Nat
  g : Nat
  h : Nat

/-- SHA-256 initial state (the FIPS 180-4 initial hash words, decimal). -/
def H0 : St :=
  ⟨1779033703, 3144134277, 1013904242, 2773480762,
   1359893119, 2600822924, 528734635, 1541459225⟩

/-- Big-endian 32-bit words from a byte list (four bytes per word). -/
def be32Words : List Nat → List Nat
  | b0 :: b1 :: b2 :: b3 :: rest =>
    (b0 * 16777216 + b1 * 65536 + b2 * 256 + b3) :: be32Words rest
  | _ => []

/-- One schedule-extension step: given the schedule so far in reverse order,
prepend the next word. -/
def extendStep (ws : List Nat) : List Nat :=
  let w2 := ws.getD 1 0
  let w7 := ws.getD 6 0
  let w15 := ws.getD 14 0
  let w16 := ws.getD 15 0
  let s0 := (rotr 7 w15) ^^^ (rotr 18 w15) ^^^ (w15 >>> 3)
  let s1 := (rotr 17 w2) ^^^ (rotr 19 w2) ^^^ (w2 >>> 10)
  ((w16 + s0 + w7 + s1) % M32) :: ws

/-- Iterate the schedule extension `n` times. -/
def extendMany : Nat → List Nat → List Nat
  | 0, ws => ws
  | n + 1, ws => extendMany n (extendStep ws)

/-- The 64-entry message schedule of one block (16 words in, 64 words out). -/
def schedule (block : List Nat) : List Nat :=
  (extendMany 48 (be32Words block).reverse).reverse

/-- One SHA-256 compression round. -/
def round (s : St) (kw : Nat × Nat) : St :=
  let S1 := (rotr 6 s.e) ^^^ (rotr 11 s.e) ^^^ (rotr 25 s.e)
  let ch := (s.e &&& s.f) ^^^ ((s.e ^^^ 0xFFFFFFFF) &&& s.g)
  let t1 := (s.h + S1 + ch + kw.1 + kw.2) % M32
  let S0 := (rotr 2 s.a) ^^^ (rotr 13 s.a) ^^^ (rotr 22 s.a)
  let mj := (s.a &&& s.b) ^^^ (s.a &&& s.c) ^^^ (s.b &&& s.c)
  let t2 := (S0 + mj) % M32
  ⟨(t1 + t2) % M32, s.a, s.b, s.c, (s.d + t1) % M32, s.e, s.f, s.g⟩

/-- Compress one 64-byte block into the running state. -/
def compress (s0 : St) (block : List Nat) : St :=
  let s := (K.zip (schedule block)).foldl round s0
  ⟨(s0.a + s.a) % M32, (s0.b + s.b) % M32, (s0.c + s.c) % M32,
   (s0.d + s.d) % M32, (s0.e + s.e) % M32, (s0.f + s.f) % M32,
   (s0.g + s.g) % M32, (s0.h + s.h) % M32⟩

/-- Big-endian fixed-width byte rendering of a natural number. -/
def beBytes : Nat → Nat → List Nat
  | 0, _ => []
  | k + 1, n => beBytes k (n / 256) ++ [n % 256]

/-- SHA-256 padding: `0x80`, zeros to 56 mod 64, then the bit length as an
8-byte big-endian integer. -/
def pad (msg : List Nat) : List Nat :=
  msg ++ [0x80] ++ List.replicate ((119 - msg.length % 64) % 64) 0 ++
    beBytes 8 (8 * msg.length)

/-- Split a byte list into 64-byte blocks (the fuel is an upper bound on the
number of blocks; the input is always exactly block-aligned here). -/
def blocks : Nat → List Nat → List (List Nat)
  | _, [] => []
  | 0, _ => []
  | fuel + 1, l => l.take 64 :: blocks fuel (l.drop 64)

/-- SHA-256 of a byte list. -/
def sha256 (msg : List Nat) : List Nat :=
  let p := pad msg
  let s := (blocks p.length p).foldl compress H0
  beBytes 4 s.a ++ beBytes 4 s.b ++ beBytes 4 s.c ++ beBytes 4 s.d ++
    beBytes 4 s.e ++ beBytes 4 s.f ++ beBytes 4 s.g ++ beBytes 4 s.h

theorem beBytes_length (k n : Nat) : (beBytes k n).length = k := by
  induction k generalizing n with
  | zero => rfl
  | succ k ih => simp [beBytes, ih]

theorem beBytes_lt (k n : Nat) : ∀ b ∈ beBytes k n, b < 256 := by
  induction k generalizing n with
  | zero => simp [beBytes]
  | succ k ih =>
    intro b hb
    simp only [beBytes, List.mem_append, List.mem_singleton] at hb
    rcases hb with hb | hb
    · exact ih _ b hb
    · subst hb; exact Nat.mod_lt _ (by norm_num)

/-- A SHA-256 digest is exactly 32 bytes long. -/
theorem sha256_length (msg : List Nat) : (sha256 msg).length = 32 := by
  simp [sha256, beBytes_length]

/-- Every byte of a SHA-256 digest is below 256. -/
theorem sha256_lt (msg : List Nat) : ∀ b ∈ sha256 msg, b < 256 := by
  intro b hb
  simp only [sha256, List.mem_append] at hb
  rcases hb with ((((((hb | hb) | hb) | hb) | hb) | hb) | hb) | hb <;>
    exact beBytes_lt 4 _ b hb

end Psce.Sha256

namespace Psce.Ripemd160

open Psce.Sha256 (M32 beBytes beBytes_length beBytes_lt)

/-- Left rotation of a 32-bit word. -/
def rol (n x : Nat) : Nat := ((x <<< n) ||| (x >>> (32 - n))) % M32

/-- Message-word selection order, left line. -/
def rL : List Nat :=
  [0,1,2,3,4,5,6,7,8,9,10,11,12,13,14,15,
   7,4,13,1,10,6,15,3,12,0,9,5,2,14,11,8,
   3,10,14,4,9,15,8,1,2,7,0,6,13,11,5,12,
   1,9,11,10,0,8,12,4,13,3,7,15,14,5,6,2,
   4,0,5,9,7,12,2,10,14,1,3,8,11,6,15,13]

/-- Message-word selection order, right line. -/
def rR : List Nat :=
  [5,14,7,0,9,2,11,4,13,6,15,8,1,10,3,12,
   6,11,3,7,0,13,5,10,14,15,8,12,4,9,1,2,
   15,5,1,3,7,14,6,9,11,8,12,2,10,0,4,13,
   8,6,4,1,3,11,15,0,5,12,2,13,9,7,10,14,
   12,15,10,4,1,5,8,7,6,2,13,14,0,3,9,11]

/-- Rotation amounts, left line. -/
def sL : List Nat :=
  [11,14,15,12,5,8,7,9,11,13,14,15,6,7,9,8,
   7,6,8,13,11,9,7,15,7,12,15,9,11,7,13,12,
   11,13,6,7,14,9,13,15,14,8,13,6,5,12,7,5,
   11,12,14,15,14,15,9,8,9,14,5,6,8,6,5,12,
   9,15,5,11,6,8,13,12,5,12,13,14,11,8,5,6]

/-- Rotation amounts, right line. -/
def sR : List Nat :=
  [8,9,9,11,13,15,15,5,7,7,8,11,14,14,12,6,
   9,13,15,7,12,8,9,11,7,7,12,7,6,15,13,11,
   9,7,15,11,8,6,6,14,12,13,5,14,13,13,7,5,
   15,5,8,11,14,14,6,14,6,9,12,9,12,5,15,8,
   8,5,12,9,12,5,14,6,8,13,6,5,15,13,11,11]

/-- Round constants, left line (by round index `j / 16`). -/
def kL (j : Nat) : Nat :=
  if j < 16 then 0x00000000 else if j < 32 then 0x5A827999
  else if j < 48 then 0x6ED9EBA1 else if j < 64 then 0x8F1BBCDC
  else 0xA953FD4E

/-- Round constants, right line. -/
def kR (j : Nat) : Nat :=
  if j < 16 then 0x50A28BE6 else if j < 32 then 0x5C4DD124
  else if j < 48 then 0x6D703EF3 else if j < 64 then 0x7A6D76E9
  else 0x00000000

/-- The five boolean selection functions, chosen by step index. -/
def fsel (j x y z : Nat) : Nat :=
  if j < 16 then x ^^^ y ^^^ z
  else if j < 32 then (x &&& y) ||| ((x ^^^ 0xFFFFFFFF) &&& z)
  else if j < 48 then (x ||| (y ^^^ 0xFFFFFFFF)) ^^^ z
  else if j < 64 then (x &&& z) ||| (y &&& (z ^^^ 0xFFFFFFFF))
  else x ^^^ (y ||| (z ^^^ 0xFFFFFFFF))

/-- Little-endian 32-bit words from a byte list. -/
def le32Words : List Nat → List Nat
  | b0 :: b1 :: b2 :: b3 :: rest =>
    (b0 + b1 * 256 + b2 * 65536 + b3 * 16777216) :: le32Words rest
  | _ => []

/-- Little-endian fixed-width byte rendering. -/
def leBytes : Nat → Nat → List Nat
  | 0, _ => []
  | k + 1, n => n % 256 :: leBytes k (n / 256)

/-- One line's register file. -/
structure Regs where
  a : Nat
  b : Nat
  c : Nat
  d : Nat
  e : Nat

/-- One RIPEMD-160 step on one line: `rj`/`sj` select word and rotation,
`kj` the constant, `sel` the index fed to `fsel`. -/
def step (X : List Nat) (sel : Nat) (kj : Nat) (r : Regs) (rj sj : Nat) : Regs :=
  let t := (rol sj ((r.a + fsel sel r.b r.c r.d + X.getD rj 0 + kj) % M32) + r.e) % M32
  ⟨r.e, t, r.b, rol 10 r.c, r.d⟩

/-- Run one line over its 80 steps. -/
def runLine (X : List Nat) (flip : Bool) (r0 : Regs)
    (rIdx sIdx : List Nat) : Regs :=
  ((List.range 80).zip (rIdx.zip sIdx)).foldl
    (fun r ⟨j, rj, sj⟩ =>
      let sel := if flip then 79 - j else j
      let kj := if flip then kR j else kL j
      step X sel kj r rj sj) r0

/-- Compress one 64-byte block into the running five-word state. -/
def compress (h : Regs) (block : List Nat) : Regs :=
  let X := le32Words block
  let l := runLine X false h rL sL
  let r := runLine X true h rR sR
  ⟨(h.b + l.c + r.d) % M32, (h.c + l.d + r.e) % M32, (h.d + l.e + r.a) % M32,
   (h.e + l.a + r.b) % M32, (h.a + l.b + r.c) % M32⟩

/-- RIPEMD-160 padding: `0x80`, zeros to 56 mod 64, then the bit length as an
8-byte little-endian integer. -/
def pad (msg : List Nat) : List Nat :=
  msg ++ [0x80] ++ List.replicate ((119 - msg.length % 64) % 64) 0 ++
    leBytes 8 (8 * msg.length)

/-- RIPEMD-160 initial state. -/
def H0 : Regs := ⟨0x67452301, 0xEFCDAB89, 0x98BADCFE, 0x10325476, 0xC3D2E1F0⟩

/-- RIPEMD-160 of a byte list; digest serialized little-endian per word. -/
def ripemd160 (msg : List Nat) : List Nat :=
  let p := pad msg
  let s := (Psce.Sha256.blocks p.length p).foldl compress H0
  leBytes 4 s.a ++ leBytes 4 s.b ++ leBytes 4 s.c ++ leBytes 4 s.d ++ leBytes 4 s.e

theorem leBytes_length (k n : Nat) : (leBytes k n).length = k := by
  induction k generalizing n with
  | zero => rfl
  | succ k ih => simp [leBytes, ih]

theorem leBytes_lt (k n : Nat) : ∀ b ∈ leBytes k n, b < 256 := by
  induction k generalizing n with
  | zero => simp [leBytes]
  | succ k ih =>
    intro b hb
    simp only [leBytes, List.mem_cons] at hb
    rcases hb with hb | hb
    · subst hb; exact Nat.mod_lt _ (by norm_num)
    · exact ih _ b hb

/-- A RIPEMD-160 digest is exactly 20 bytes long. -/
theorem ripemd160_length (msg : List Nat) : (ripemd160 msg).length = 20 := by
  simp [ripemd160, leBytes_length]

/-- Every byte of a RIPEMD-160 digest is below 256. -/
theorem ripemd160_lt (msg : List Nat) : ∀ b ∈ ripemd160 msg, b < 256 := by
  intro b hb
  simp only [ripemd160, List.mem_append] at hb
  rcases hb with (((hb | hb) | hb) | hb) | hb <;> exact leBytes_lt 4 _ b hb

end Psce.Ripemd160

namespace Psce.BaseConv

/-- Big-endian digits of `n` in base `B` (empty for zero); `fuel` bounds the
number of digits produced. -/
def unfold (B : Nat) : Nat → Nat → List Nat
  | 0, _ => []
  | fuel + 1, n => if n = 0 then [] else unfold B fuel (n / B) ++ [n % B]

/-- Value of a big-endian digit list in base `B`. -/
def val (B : Nat) (l : List Nat) : Nat := l.foldl (fun a d => a * B + d) 0

/-- `[]` is the expansion of zero at any fuel. -/
theorem unfold_zero (B fuel : Nat) : unfold B fuel 0 = [] := by
  cases fuel <;> simp [unfold]

theorem val_nil (B : Nat) : val B [] = 0 := rfl

theorem foldl_acc (B : Nat) (l : List Nat) :
    ∀ a, l.foldl (fun a d => a * B + d) a = a * B ^ l.length + val B l := by
  induction l with
  | nil => intro a; simp [val]
  | cons d t ih =>
    intro a
    have h1 := ih (a * B + d)
    have h2 := ih d
    simp only [List.foldl_cons, List.length_cons, val] at *
    rw [h1]
    have : (List.foldl (fun a d => a * B + d) (0 * B + d) t) =
        d * B ^ t.length + List.foldl (fun a d => a * B + d) 0 t := by
      simpa using h2
    rw [this]; ring

theorem val_cons (B d : Nat) (t : List Nat) :
    val B (d :: t) = d * B ^ t.length + val B t := by
  have := foldl_acc B t d
  simpa [val] using this

theorem val_append (B : Nat) (l1 l2 : List Nat) :
    val B (l1 ++ l2) = val B l1 * B ^ l2.length + val B l2 := by
  have := foldl_acc B l2 (val B l1)
  simp only [val, List.foldl_append]
  exact this

theorem val_lt (B : Nat) (hB : 0 < B) (l : List Nat) (h : ∀ d ∈ l, d < B) :
    val B l < B ^ l.length := by
  induction l with
  | nil => simpa [val] using Nat.pos_pow_of_pos 0 hB
  | cons d t ih =>
    have hd : d < B := h d (List.mem_cons_self d t)
    have ht := ih (fun x hx => h x (List.mem_cons_of_mem d hx))
    rw [val_cons]
    calc d * B ^ t.length + val B t < d * B ^ t.length + B ^ t.length :=
          Nat.add_lt_add_left ht _
      _ = (d + 1) * B ^ t.length := by ring
      _ ≤ B * B ^ t.length := Nat.mul_le_mul_right _ hd
      _ = B ^ (d :: t).length := by rw [List.length_cons]; ring

theorem val_replicate_zero (B z : Nat) : val B (List.replicate z 0) = 0 := by
  induction z with
  | zero => rfl
  | succ z ih =>
    rw [List.replicate_succ, val_cons, ih]
    simp

theorem val_replicate_zero_append (B z : Nat) (l : List Nat) :
    val B (List.replicate z 0 ++ l) = val B l := by
  rw [val_append, val_replicate_zero]; simp

theorem val_head_lower (B : Nat) (d : Nat) (t : List Nat) :
    d * B ^ t.length ≤ val B (d :: t) := by
  rw [val_cons]; omega

theorem val_unfold (B : Nat) (hB : 2 ≤ B) :
    ∀ fuel n, n < B ^ fuel → val B (unfold B fuel n) = n := by
  intro fuel
  induction fuel with
  | zero =>
    intro n hn
    have hn0 : n = 0 := by simpa using hn
    simp [hn0, unfold_zero, val]
  | succ fuel ih =>
    intro n hn
    by_cases h0 : n = 0
    · simp [h0, unfold_zero, val]
    · have hBpos : 0 < B := by omega
      have hdiv : n / B < B ^ fuel := by
        rw [Nat.div_lt_iff_lt_mul hBpos]
        calc n < B ^ (fuel + 1) := hn
          _ = B ^ fuel * B := by ring
      simp only [unfold, h0, if_false]
      rw [val_append, ih _ hdiv]
      have hv1 : val B [n % B] = n % B := by simp [val_cons, val_nil]
      have hl1 : ([n % B] : List Nat).length = 1 := rfl
      rw [hv1, hl1, pow_one, Nat.mul_comm]
      exact Nat.div_add_mod n B

theorem unfold_elem_lt (B : Nat) (hB : 2 ≤ B) :
    ∀ fuel n d, d ∈ unfold B fuel n → d < B := by
  intro fuel
  induction fuel with
  | zero => intro n d hd; simp [unfold] at hd
  | succ fuel ih =>
    intro n d hd
    by_cases h0 : n = 0
    · simp [h0, unfold_zero] at hd
    · simp only [unfold, h0, if_false, List.mem_append, List.mem_singleton] at hd
      rcases hd with hd | hd
      · exact ih _ _ hd
      · subst hd; exact Nat.mod_lt _ (by omega)

theorem unfold_head_pos (B : Nat) (hB : 2 ≤ B) :
    ∀ fuel n, 0 < n → n < B ^ fuel →
      ∃ h t, unfold B fuel n = h :: t ∧ 0 < h := by
  intro fuel
  induction fuel with
  | zero => intro n hn hlt; simp at hlt; omega
  | succ fuel ih =>
    intro n hn hlt
    have hBpos : 0 < B := by omega
    have h0 : n ≠ 0 := by omega
    simp only [unfold, h0, if_false]
    by_cases hq : n / B = 0
    · have hnB : n < B := (Nat.div_eq_zero_iff hBpos).mp hq
      refine ⟨n % B, [], ?_, ?_⟩
      · rw [hq, unfold_zero]; simp
      · rw [Nat.mod_eq_of_lt hnB]; omega
    · have hdiv : n / B < B ^ fuel := by
        rw [Nat.div_lt_iff_lt_mul hBpos]
        calc n < B ^ (fuel + 1) := hlt
          _ = B ^ fuel * B := by ring
      obtain ⟨h, t, heq, hhpos⟩ := ih _ (Nat.pos_of_ne_zero hq) hdiv
      exact ⟨h, t ++ [n % B], by rw [heq]; simp, hhpos⟩

/-- The head of a digit list is nonzero (vacuously true for `[]`). -/
def HeadPos : List Nat → Prop
  | [] => True
  | h :: _ => 0 < h

theorem val_pos (B : Nat) (hB : 0 < B) (h : Nat) (t : List Nat) (hh : 0 < h) :
    0 < val B (h :: t) := by
  have hl := val_head_lower B h t
  have hp : 0 < h * B ^ t.length := Nat.mul_pos hh (Nat.pos_pow_of_pos _ hB)
  omega

theorem unfold_full (B : Nat) (hB : 2 ≤ B) :
    ∀ l : List Nat, (∀ d ∈ l, d < B) → HeadPos l →
      ∀ fuel, l.length ≤ fuel → unfold B fuel (val B l) = l := by
  intro l
  induction l using List.reverseRecOn with
  | nil => intro _ _ fuel _; simp [val, unfold_zero]
  | append_singleton l' d ihl =>
    intro hlt hh fuel hfuel
    have hBpos : 0 < B := by omega
    have hd : d < B := hlt d (by simp)
    rw [List.length_append, List.length_singleton] at hfuel
    obtain ⟨f, rfl⟩ : ∃ f, fuel = f + 1 := ⟨fuel - 1, by omega⟩
    have hval : val B (l' ++ [d]) = val B l' * B + d := by
      rw [val_append]; simp [val_cons, val_nil]
    rw [hval]
    by_cases hnil : l' = []
    · subst hnil
      have hdpos : 0 < d := hh
      simp only [val_nil, Nat.zero_mul, Nat.zero_add]
      have hd0 : d ≠ 0 := by omega
      simp only [unfold, hd0, if_false]
      rw [Nat.div_eq_of_lt hd, unfold_zero, Nat.mod_eq_of_lt hd]
    · obtain ⟨h, t, rfl⟩ : ∃ h t, l' = h :: t :=
        ⟨l'.head hnil, l'.tail, by simp⟩
      have hhpos : 0 < h := hh
      have hvpos : 0 < val B (h :: t) := val_pos B hBpos h t hhpos
      have hne : val B (h :: t) * B + d ≠ 0 := by
        have : 0 < val B (h :: t) * B := Nat.mul_pos hvpos hBpos
        omega
      simp only [unfold, hne, if_false]
      rw [Nat.mul_comm (val B (h :: t)) B]
      rw [Nat.mul_add_div hBpos, Nat.mul_add_mod]
      rw [Nat.div_eq_of_lt hd, Nat.mod_eq_of_lt hd, Nat.add_zero]
      rw [ihl (fun x hx => hlt x (List.mem_append_left [d] hx)) hhpos f
        (by simpa using hfuel)]

end Psce.BaseConv

namespace Psce.Base58

open Psce.BaseConv

/-- The Bitcoin base58 alphabet used by both `@scure/base` and `bs58`. -/
def alphabet : Str :=
  "123456789ABCDEFGHJKLMNPQRSTUVWXYZabcdefghijkmnopqrstuvwxyz".data

/-- Character of a base58 digit value. -/
def digitChar (d : Nat) : Char := alphabet.getD d '1'

/-- Digit value of a character, `none` when the character is not in the
alphabet (where `@scure/base` throws). -/
def charIdx (c : Char) : Option Nat := alphabet.findIdx? (fun x => x = c)

/-- Digit values of a string, `none` as soon as one character is invalid. -/
def digitsOf : Str → Option (List Nat)
  | [] => some []
  | c :: rest =>
    match charIdx c, digitsOf rest with
    | some d, some ds => some (d :: ds)
    | _, _ => none

/-- base58-encode a byte list: leading zero bytes become leading `'1'`s and
the remaining big-endian value is rewritten in base 58. -/
def b58Encode (bs : List Nat) : Str :=
  List.replicate (bs.takeWhile (· = 0)).length '1' ++
    (unfold 58 (2 * bs.length) (val 256 bs)).map digitChar

/-- base58-decode a string: `none` on any character outside the alphabet,
otherwise leading `'1'`s become zero bytes and the big-endian base58 value is
rewritten in base 256. -/
def b58Decode (s : Str) : Option (List Nat) :=
  (digitsOf s).map (fun ds =>
    List.replicate (ds.takeWhile (· = 0)).length 0 ++
      unfold 256 s.length (val 58 ds))

theorem charIdx_digitChar : ∀ d < 58, charIdx (digitChar d) = some d := by
  decide

theorem charIdx_one : charIdx '1' = some 0 := by decide

theorem digitsOf_append (l1 l2 : Str) (d1 d2 : List Nat)
    (h1 : digitsOf l1 = some d1) (h2 : digitsOf l2 = some d2) :
    digitsOf (l1 ++ l2) = some (d1 ++ d2) := by
  induction l1 generalizing d1 with
  | nil => simp [digitsOf] at h1; subst h1; simpa using h2
  | cons c rest ih =>
    simp only [digitsOf] at h1
    rcases hc : charIdx c with _ | d
    · rw [hc] at h1; simp at h1
    · rw [hc] at h1
      rcases hr : digitsOf rest with _ | ds
      · rw [hr] at h1; simp at h1
      · rw [hr] at h1
        simp only [Option.some.injEq] at h1
        subst h1
        simp only [List.cons_append, digitsOf, hc, List.append_eq, ih ds hr]

theorem digitsOf_replicate_one (z : Nat) :
    digitsOf (List.replicate z '1') = some (List.replicate z 0) := by
  induction z with
  | zero => rfl
  | succ z ih => simp [List.replicate_succ, digitsOf, charIdx_one, ih]

theorem digitsOf_map_digitChar (ds : List Nat) (h : ∀ d ∈ ds, d < 58) :
    digitsOf (ds.map digitChar) = some ds := by
  induction ds with
  | nil => rfl
  | cons d rest ih =>
    have hd : d < 58 := h d (List.mem_cons_self d rest)
    simp only [List.map_cons, digitsOf, charIdx_digitChar d hd,
      ih (fun x hx => h x (List.mem_cons_of_mem d hx))]

/-- The first byte surviving `dropWhile (· = 0)` is nonzero. -/
theorem dropWhile_zero_head_pos : ∀ (bs : List Nat) (b : Nat) (t : List Nat),
    bs.dropWhile (· = 0) = b :: t → 0 < b := by
  intro bs
  induction bs with
  | nil => intro b t h; simp [List.dropWhile] at h
  | cons x rest ih =>
    intro b t h
    rw [List.dropWhile_cons] at h
    by_cases hx : x = 0
    · rw [if_pos (by simp [hx])] at h
      exact ih b t h
    · rw [if_neg (by simp [hx])] at h
      injection h with h1 h2
      omega

theorem takeWhile_replicate_zero_cons (z h : Nat) (t : List Nat) (hh : h ≠ 0) :
    (List.replicate z 0 ++ h :: t).takeWhile (· = 0) = List.replicate z 0 := by
  induction z with
  | zero => simp [List.takeWhile_cons, hh]
  | succ z ih => simp [List.replicate_succ, List.takeWhile_cons, ih]

theorem takeWhile_replicate_zero (z : Nat) :
    (List.replicate z (0 : Nat)).takeWhile (· = 0) = List.replicate z 0 := by
  induction z with
  | zero => rfl
  | succ z ih => simp [List.replicate_succ, List.takeWhile_cons, ih]

/-- Decoding inverts encoding on genuine byte lists. -/
theorem b58_roundtrip (bs : List Nat) (h : ∀ b ∈ bs, b < 256) :
    b58Decode (b58Encode bs) = some bs := by
  set z := (bs.takeWhile (· = 0)).length with hz
  set n := val 256 bs with hn
  set ds0 := unfold 58 (2 * bs.length) n with hds0
  have hds0lt : ∀ d ∈ ds0, d < 58 := fun d hd =>
    unfold_elem_lt 58 (by norm_num) _ _ d hd
  have hsplit : bs = List.replicate z 0 ++ bs.dropWhile (· = 0) := by
    conv_lhs => rw [← List.takeWhile_append_dropWhile (p := (· = 0)) (l := bs)]
    congr 1
    have : ∀ x ∈ bs.takeWhile (· = 0), x = 0 := by
      intro x hx
      have := List.mem_takeWhile_imp hx
      simpa using this
    exact List.eq_replicate_length.mpr this
  set bs' := bs.dropWhile (· = 0) with hbs'
  have hbs'lt : ∀ b ∈ bs', b < 256 := fun b hb =>
    h b (List.dropWhile_subset _ hb)
  have hvalbs' : val 256 bs' = n := by
    rw [hn]
    conv_rhs => rw [hsplit]
    rw [val_replicate_zero_append]
  have hnlt : n < 58 ^ (2 * bs.length) := by
    have h1 : n < 256 ^ bs.length := by
      rw [hn]; exact val_lt 256 (by norm_num) bs h
    calc n < 256 ^ bs.length := h1
      _ ≤ (58 ^ 2) ^ bs.length := Nat.pow_le_pow_left (by norm_num) _
      _ = 58 ^ (2 * bs.length) := by rw [← pow_mul, Nat.mul_comm]
  have hvalds0 : val 58 ds0 = n := by
    rw [hds0]; exact val_unfold 58 (by norm_num) _ _ hnlt
  -- digits of the encoded string
  have hdigits : digitsOf (b58Encode bs) = some (List.replicate z 0 ++ ds0) := by
    rw [b58Encode, ← hz, ← hn, ← hds0]
    exact digitsOf_append _ _ _ _ (digitsOf_replicate_one z)
      (digitsOf_map_digitChar ds0 hds0lt)
  by_cases h0 : n = 0
  -- zero value: no base58 digits, only leading '1's
  · have hbs'nil : bs' = [] := by
      rcases hbs'e : bs' with _ | ⟨b, t⟩
      · rfl
      · exfalso
        have hbpos : 0 < b :=
          dropWhile_zero_head_pos bs b t (hbs'.symm.trans hbs'e)
        have hv : 0 < val 256 bs' := by
          rw [hbs'e]; exact val_pos 256 (by norm_num) b t hbpos
        rw [hvalbs', h0] at hv
        exact Nat.lt_irrefl 0 hv
    have hds0nil : ds0 = [] := by rw [hds0, h0, unfold_zero]
    have hbseq : bs = List.replicate z 0 := by
      rw [hsplit, hbs'nil, List.append_nil]
    rw [b58Decode, hdigits, hds0nil]
    simp only [Option.map_some', List.append_nil]
    rw [takeWhile_replicate_zero, List.length_replicate, val_replicate_zero,
      unfold_zero, List.append_nil, hbseq]
  -- nonzero value: digits start with a nonzero digit
  · obtain ⟨hd0, td0, hds0eq, hhdpos⟩ :=
      unfold_head_pos 58 (by norm_num) (2 * bs.length) n (Nat.pos_of_ne_zero h0) hnlt
    rw [← hds0] at hds0eq
    -- bs' is nonempty with a nonzero head
    have hbs'ne : bs' ≠ [] := by
      intro hcon
      rw [hcon] at hvalbs'
      simp [val_nil] at hvalbs'
      exact h0 hvalbs'.symm
    obtain ⟨b0, bt, hbs'eq⟩ : ∃ b0 bt, bs' = b0 :: bt := by
      rcases hbs'e : bs' with _ | ⟨b, t⟩
      · exact absurd hbs'e hbs'ne
      · exact ⟨b, t, rfl⟩
    have hb0pos : 0 < b0 :=
      dropWhile_zero_head_pos bs b0 bt (hbs'.symm.trans hbs'eq)
    -- the decode side sees exactly z leading zero digits
    rw [b58Decode, hdigits, hds0eq]
    simp only [Option.map_some']
    rw [takeWhile_replicate_zero_cons z hd0 td0 (by omega), List.length_replicate]
    rw [val_replicate_zero_append, ← hds0eq, hvalds0]
    -- the byte expansion of n is exactly bs'
    have hlenbound : bs'.length ≤ (b58Encode bs).length := by
      have hnge : 256 ^ (bs'.length - 1) ≤ n := by
        rw [← hvalbs', hbs'eq]
        calc (256 : Nat) ^ (b0 :: bt).length.pred = 256 ^ bt.length := by simp
          _ ≤ b0 * 256 ^ bt.length := Nat.le_mul_of_pos_left _ hb0pos
          _ ≤ val 256 (b0 :: bt) := val_head_lower 256 b0 bt
      have hnlt' : n < 58 ^ ds0.length := by
        rw [← hvalds0]; exact val_lt 58 (by norm_num) ds0 hds0lt
      have hlt2 : (256 : Nat) ^ (bs'.length - 1) < 256 ^ ds0.length := by
        calc (256 : Nat) ^ (bs'.length - 1) ≤ n := hnge
          _ < 58 ^ ds0.length := hnlt'
          _ ≤ 256 ^ ds0.length := Nat.pow_le_pow_left (by norm_num) _
      have hexp : bs'.length - 1 < ds0.length :=
        (Nat.pow_lt_pow_iff_right (by norm_num : 1 < 256)).mp hlt2
      have : bs'.length ≤ ds0.length := by omega
      calc bs'.length ≤ ds0.length := this
        _ ≤ z + ds0.length := by omega
        _ = (b58Encode bs).length := by
          rw [b58Encode, ← hz, ← hn, ← hds0]
          simp [List.length_append, List.length_replicate, List.length_map]
    rw [← hvalbs']
    rw [unfold_full 256 (by norm_num) bs' hbs'lt
      (by rw [hbs'eq]; exact hb0pos) _ hlenbound]
    exact congrArg some hsplit.symm

end Psce.Base58

namespace Psce.Secp256k1

/-- The secp256k1 field prime. -/
def P : Nat :=
  0xFFFFFFFFFFFFFFFFFFFFFFFFFFFFFFFFFFFFFFFFFFFFFFFFFFFFFFFEFFFFFC2F

/-- The secp256k1 group order. -/
def N : Nat :=
  0xFFFFFFFFFFFFFFFFFFFFFFFFFFFFFFFEBAAEDCE6AF48A03BBFD25E8CD0364141

/-- Generator x coordinate. -/
def Gx : Nat :=
  0x79BE667EF9DCBBAC55A06295CE870B07029BFCDB2DCE28D959F2815B16F81798

/-- Generator y coordinate. -/
def Gy : Nat :=
  0x483ADA7726A3C4655DA4FBFC0E1108A8FD17B448A68554199C47D08FFB10D4B8

/-- Modular exponentiation by binary expansion of the exponent; the fuel
bounds the exponent's bit count. -/
def powModAux : Nat → Nat → Nat → Nat → Nat
  | 0, _, _, _ => 1
  | fuel + 1, b, e, m =>
    if e = 0 then 1
    else
      let r := powModAux fuel (b * b % m) (e / 2) m
      if e % 2 = 1 then r * b % m else r

/-- Modular inverse in the field by Fermat's little theorem. -/
def finv (a : Nat) : Nat := powModAux 300 a (P - 2) P

/-- An affine point; `none` is the point at infinity. -/
abbrev Point := Option (Nat × Nat)

/-- Affine point addition, as `elliptic` performs on short Weierstrass
curves (all coordinates kept reduced modulo `P`). -/
def ecAdd (p q : Point) : Point :=
  match p, q with
  | none, q => q
  | p, none => p
  | some (x1, y1), some (x2, y2) =>
    if x1 = x2 then
      if (y1 + y2) % P = 0 then none
      else
        let l := (3 * x1 * x1 % P) * finv (2 * y1 % P) % P
        let x3 := (l * l + 2 * P - x1 - x2) % P
        let y3 := (l * ((x1 + P - x3) % P) % P + P - y1) % P
        some (x3, y3)
    else
      let l := ((y2 + P - y1) % P) * finv ((x2 + P - x1) % P) % P
      let x3 := (l * l + 2 * P - x1 - x2) % P
      let y3 := (l * ((x1 + P - x3) % P) % P + P - y1) % P
      some (x3, y3)

/-- Double-and-add scalar multiplication (fuel bounds the scalar's bits). -/
def ecMulAux : Nat → Nat → Point → Point
  | 0, _, _ => none
  | fuel + 1, k, pt =>
    if k = 0 then none
    else
      let r := ecMulAux fuel (k / 2) (ecAdd pt pt)
      if k % 2 = 1 then ecAdd r pt else r

/-- Multiply the generator by a scalar. -/
def ecMulG (k : Nat) : Point := ecMulAux 300 k (some (Gx, Gy))

/-- Parse a whole string as a big-endian hex number (how `bn.js` reads the
private key text); `none` on a non-hex character. -/
def hexStrToNat? (s : Psce.Str) : Option Nat :=
  s.foldl (fun acc c =>
    match acc, Psce.hexVal c with
    | some a, some v => some (16 * a + v)
    | _, _ => none) (some 0)

/-- `getPubKeyFromPrivate` from `src/lib/wallet/utility.js`: derive the
uncompressed public point and render it as `"04" + x + y` in lower-case hex;
`none` models the `catch` branch (which logs and returns `undefined`). -/
def getPubKeyFromPrivate (pri : Psce.Str) : Option Psce.Str :=
  match hexStrToNat? pri with
  | none => none
  | some k =>
    match ecMulG (k % N) with
    | none => none
    | some (x, y) =>
      some ('0' :: '4' ::
        (Psce.bytesToHex (Psce.Sha256.beBytes 32 x) ++
         Psce.bytesToHex (Psce.Sha256.beBytes 32 y)))

end Psce.Secp256k1

namespace Psce.Wallet

open Psce Psce.Base58

/-- The npm `sha256` package applied to a string: lower-case hex text of the
SHA-256 of the string's UTF-8 bytes. -/
def sha256Hex (s : Str) : Str := bytesToHex (Sha256.sha256 (utf8 s))

/-- `sha256.x2`: the package computes `sha256(sha256(message, {asBytes:
true}))` — the second application hashes the raw 32-byte digest of the
first, and the result is rendered as lower-case hex
(`x2("hello") = 9595c9df…`). -/
def sha256x2 (s : Str) : Str :=
  bytesToHex (Sha256.sha256 (Sha256.sha256 (utf8 s)))

/-- `new RIPEMD160().update(s).digest("hex")`: lower-case hex text of the
RIPEMD-160 of the string's UTF-8 bytes. -/
def ripemd160Hex (s : Str) : Str := bytesToHex (Ripemd160.ripemd160 (utf8 s))

/-- `crypto.createHash("sha256")` chained twice over bytes. -/
def sha256d (bs : List Nat) : List Nat := Sha256.sha256 (Sha256.sha256 bs)

/-- `base58extracted(publicKey, prefix)` from `src/lib/wallet/utility.js`:

```js
publicKey = sha256.x2(publicKey);
publicKey = new RIPEMD160().update(publicKey).digest("hex");
const secondHash = prefix + publicKey;
let hashLast = sha256.x2(secondHash);
hashLast = sha256.x2(hashLast);
const firstByte = hashLast.substr(0, 8);
return secondHash + firstByte;
```
-/
def base58extracted (publicKey prefx : Str) : Str :=
  let pk1 := sha256x2 publicKey
  let pk2 := ripemd160Hex pk1
  let secondHash := prefx ++ pk2
  let hashLast := sha256x2 (sha256x2 secondHash)
  secondHash ++ hashLast.take 8

/-- `Buffer.from("83", "hex")`, the `prefixBuffer` of `convertToBase58`. -/
def versionBuffer : List Nat := hexToBytesJS "83".data

/-- `data = Buffer.from(base58extracted(pubAddress, "83"), "hex")` in
`convertToBase58`. -/
def convertData (pubAddress : Str) : List Nat :=
  hexToBytesJS (base58extracted pubAddress "83".data)

/-- The base58check checksum of `convertToBase58`: first 4 bytes of the
double SHA-256 of `prefixBuffer ++ data`. -/
def convertChecksum (pubAddress : Str) : List Nat :=
  (sha256d (versionBuffer ++ convertData pubAddress)).take 4

/-- `finalData = Buffer.concat([prefixBuffer, data, checksum])` in
`convertToBase58` (and identically in `createNewAddress`). -/
def finalData (pubAddress : Str) : List Nat :=
  versionBuffer ++ convertData pubAddress ++ convertChecksum pubAddress

/-- `convertToBase58(pubAddress, chainPrefix).base58` from
`src/lib/wallet/utility.js`: `(chainPrefix ?? "PR") + base58(finalData)`.
`createNewAddress` in `src/lib/wallet/createNewAddress.js` builds its
address with the same pipeline from a freshly sampled key pair. -/
def convertToBase58 (pubAddress : Str) (chainPrefix : Option Str) : Str :=
  chainPrefix.getD "PR".data ++ b58Encode (finalData pubAddress)

/-- The `possiblePrefixes` list of `isValidAddress`. -/
def possiblePrefixes : List Str :=
  ["PR".data, "TZ".data, "MR".data, "AA".data, "PS".data, "CHAIN".data]

/-- Longest leading run of `A`–`Z` characters (the fallback scan of
`isValidAddress`). -/
def upperRun : Str → Str
  | [] => []
  | c :: rest => if 'A' ≤ c ∧ c ≤ 'Z' then c :: upperRun rest else []

/-- Chain-prefix resolution of `isValidAddress`: first match in the known
list, otherwise the leading upper-case run. -/
def resolvePrefix (address : Str) : Str :=
  match possiblePrefixes.find? (fun p => p.isPrefixOf address) with
  | some p => p
  | none => upperRun address

/-- `isValidAddress(address)` from `src/lib/wallet/isValidAddress.js`:
resolve and strip the chain prefix, base58-decode the remainder, split the
trailing 4 bytes and compare them against the first 4 bytes of the double
SHA-256 of the preceding bytes.  A decode failure (the `catch`) gives
`false`; `Buffer.slice` on fewer than 4 bytes yields the whole buffer as
checksum and an empty data part, exactly as in Node. -/
def isValidAddress (address : Str) : Bool :=
  let chainPrefix := resolvePrefix address
  let base58Part := address.drop chainPrefix.length
  match b58Decode base58Part with
  | none => false
  | some decoded =>
    let checksum := decoded.drop (decoded.length - 4)
    let data := decoded.take (decoded.length - 4)
    let expected := (sha256d data).take 4
    checksum == expected

/-- `getAddressPrefix(address)` from `src/lib/wallet/index.js`: throws on
an address shorter than two characters, else the first two characters
(`!address` is subsumed by the length test, since only the empty string is
falsy among strings here). -/
def getAddressPrefix (address : Str) : Except Str Str :=
  if address.length < 2 then .error "Invalid address format".data
  else .ok (address.take 2)

/-- `isAddressForNetwork(address, expectedPrefix)` from
`src/lib/wallet/index.js`: `false` for an invalid address, otherwise the
comparison of `getAddressPrefix(address)` with the expected prefix; an
exception from `getAddressPrefix` propagates. -/
def isAddressForNetwork (address expectedPrefix : Str) : Except Str Bool :=
  if isValidAddress address then
    (getAddressPrefix address).map (fun p => p == expectedPrefix)
  else
    .ok false

end Psce.Wallet

namespace Psce.Bip39

open Psce Psce.BaseConv

/-- Big-endian fixed-width binary digits of a value (`lpad(x.toString(2))`
in the `bip39` sources); each digit is `0` or `1`. -/
def toBitsW : Nat → Nat → List Nat
  | 0, _ => []
  | w + 1, n => toBitsW w (n / 2) ++ [n % 2]

/-- `bytesToBinary`: 8 bits per byte, concatenated. -/
def bytes2Bits (bs : List Nat) : List Nat := bs.flatMap (toBitsW 8)

/-- Regroup a bit string into bytes (`.match(/(.{1,8})/g).map(binaryToByte)`
on an exactly byte-aligned bit string). -/
def bits2Bytes : List Nat → List Nat
  | b0 :: b1 :: b2 :: b3 :: b4 :: b5 :: b6 :: b7 :: rest =>
    val 2 [b0, b1, b2, b3, b4, b5, b6, b7] :: bits2Bytes rest
  | _ => []

/-- Regroup a bit string into 11-bit word indices
(`.match(/(.{1,11})/g)` on an exactly aligned bit string). -/
def chunks11 : List Nat → List Nat
  | b0 :: b1 :: b2 :: b3 :: b4 :: b5 :: b6 :: b7 :: b8 :: b9 :: b10 :: rest =>
    val 2 [b0, b1, b2, b3, b4, b5, b6, b7, b8, b9, b10] :: chunks11 rest
  | _ => []

/-- `deriveChecksumBits`: the first `ENT/32` bits of the SHA-256 of the
entropy bytes. -/
def checksumBits (entropy : List Nat) : List Nat :=
  (bytes2Bits (Sha256.sha256 entropy)).take (entropy.length * 8 / 32)

/-- Modelled from the spec: the spec fixes only "a fixed wordlist" of 2048
distinct lower-case words ("MnemonicPhrase: exactly 24 lowercase words from
a fixed wordlist"); the concrete English wordlist of the `bip39` dependency
is data not present in this repository.  Word `i` is modelled as the letter
`w` followed by the decimal digits of `i`, which is injective, so the
index-to-word map shares the only property the claims rely on. -/
def wordAt (i : Nat) : Str :=
  'w' :: (unfold 10 (i + 1) i).map (fun d => Char.ofNat ('0'.toNat + d))

/-- Decimal digit of a character, `none` otherwise. -/
def digitOfChar (c : Char) : Option Nat :=
  if '0' ≤ c ∧ c ≤ '9' then some (c.toNat - '0'.toNat) else none

/-- Modelled from the spec: `wordlist.indexOf(word)` for the modelled
wordlist — the index whose `wordAt` rendering is exactly `w`, `none` (the
`indexOf === -1` branch) for any other string. -/
def wordIndexOf : Str → Option Nat
  | 'w' :: cs =>
    match cs.mapM digitOfChar with
    | none => none
    | some ds =>
      if ds.head? = some 0 then none
      else
        let i := val 10 ds
        if i < 2048 then some i else none
  | _ => none

/-- `bip39.entropyToMnemonic` (with the modelled wordlist): reject entropy
that is not 16–32 bytes in 4-byte steps, else split
`entropyBits ++ checksumBits` into 11-bit indices and look each word up.
The phrase is modelled as its list of words (`words.join(' ')` and the
matching `split(' ')` are mutually inverse on space-free words). -/
def entropyToMnemonic (entropyHex : Str) : Except Str (List Str) :=
  let entropy := hexToBytesJS entropyHex
  if entropy.length < 16 ∨ 32 < entropy.length ∨ entropy.length % 4 ≠ 0 then
    .error "Invalid entropy".data
  else
    .ok ((chunks11 (bytes2Bits entropy ++ checksumBits entropy)).map wordAt)

/-- `bip39.mnemonicToEntropy`: word count divisible by 3, every word in the
list, checksum over the recovered entropy must match; returns lower-case
hex text of the entropy bytes. -/
def mnemonicToEntropy (words : List Str) : Except Str Str :=
  if words.length % 3 ≠ 0 then .error "Invalid mnemonic".data
  else
    match words.mapM wordIndexOf with
    | none => .error "Invalid mnemonic".data
    | some idxs =>
      let bits := idxs.flatMap (toBitsW 11)
      let dividerIndex := bits.length / 33 * 32
      let entropyBits := bits.take dividerIndex
      let checksumPart := bits.drop dividerIndex
      let entropyBytes := bits2Bytes entropyBits
      if entropyBytes.length < 16 ∨ 32 < entropyBytes.length ∨
          entropyBytes.length % 4 ≠ 0 then
        .error "Invalid entropy".data
      else if checksumBits entropyBytes ≠ checksumPart then
        .error "Invalid mnemonic checksum".data
      else
        .ok (bytesToHex entropyBytes)

end Psce.Bip39

namespace Psce.WalletMnemonic

open Psce Psce.Bip39

/-- `getMnemonic(privateKey)` from `src/lib/wallet/getMnemonic.js`:
`mongo-sanitize` is the identity on strings; the `{error: 1, message}`
object of the `catch` branch is the `.error` case. -/
def getMnemonic (privateKey : Str) : Except Str (List Str) :=
  match entropyToMnemonic privateKey with
  | .ok m => .ok m
  | .error _ => .error "There is an error. Check your private key!".data

/-- `rescuePrivateKey(words, chainPrefix)` from
`src/lib/wallet/rescuePrivateKey.js`: mnemonic back to entropy, entropy to
public point, public point to address with the caller's `chainPrefix`
prepended verbatim; any failure lands in the single `catch`.  The `.ok`
payload is `(pri, base58Address)`. -/
def rescuePrivateKey (words : List Str) (chainPrefix : Option Str) :
    Except Str (Str × Str) :=
  match mnemonicToEntropy words with
  | .error _ => .error "There is an error. Check your mnemonic words!".data
  | .ok pri =>
    match Secp256k1.getPubKeyFromPrivate pri with
    | none => .error "There is an error. Check your mnemonic words!".data
    | some pubKey => .ok (pri, Wallet.convertToBase58 pubKey chainPrefix)

end Psce.WalletMnemonic

namespace Psce.HexLemmas

open Psce

theorem hexVal_lt (c : Char) (v : Nat) (h : hexVal c = some v) : v < 16 := by
  simp only [hexVal] at h
  split at h
  · injection h with h; omega
  · split at h
    · injection h with h; omega
    · split at h
      · injection h with h; omega
      · exact absurd h (by simp)

theorem hexToBytesJS_lt (s : Str) : ∀ b ∈ hexToBytesJS s, b < 256 := by
  induction s using hexToBytesJS.induct with
  | case1 c1 c2 rest h l hcl hch ih =>
    intro b hb
    rw [hexToBytesJS] at hb
    simp only [hcl, hch, List.mem_cons] at hb
    rcases hb with hb | hb
    · have h1 := hexVal_lt c1 h hch
      have h2 := hexVal_lt c2 l hcl
      omega
    · exact ih b hb
  | case2 c1 c2 rest hm =>
    intro b hb
    rw [hexToBytesJS] at hb
    simp only [hm] at hb
    simp at hb
  | case3 s hs =>
    intro b hb
    rw [hexToBytesJS] at hb
    · simp at hb
    · exact hs

theorem hexVal_hexDigit : ∀ v < 16, hexVal (hexDigit v) = some v := by decide

/-- Parsing hex text rendered from bytes consumes exactly those bytes and
continues with the remainder. -/
theorem hexToBytesJS_bytesToHex_append (bs : List Nat) (rest : Str)
    (h : ∀ b ∈ bs, b < 256) :
    hexToBytesJS (bytesToHex bs ++ rest) = bs ++ hexToBytesJS rest := by
  induction bs with
  | nil => simp [bytesToHex]
  | cons b t ih =>
    have hb : b < 256 := h b (List.mem_cons_self b t)
    have hhi : b / 16 % 16 < 16 := Nat.mod_lt _ (by norm_num)
    have hlo : b % 16 < 16 := Nat.mod_lt _ (by norm_num)
    simp only [bytesToHex, List.flatMap_cons, List.append_assoc, List.cons_append,
      List.nil_append]
    rw [hexToBytesJS]
    simp only [hexVal_hexDigit _ hhi, hexVal_hexDigit _ hlo]
    have hrw : bytesToHex t =
        t.flatMap (fun b => [hexDigit (b / 16 % 16), hexDigit (b % 16)]) := rfl
    rw [← hrw, ih (fun x hx => h x (List.mem_cons_of_mem b hx))]
    have : 16 * (b / 16 % 16) + b % 16 = b := by omega
    rw [this]

theorem hexToBytesJS_bytesToHex (bs : List Nat) (h : ∀ b ∈ bs, b < 256) :
    hexToBytesJS (bytesToHex bs) = bs := by
  have := hexToBytesJS_bytesToHex_append bs [] h
  simpa [hexToBytesJS] using this

end Psce.HexLemmas

namespace Psce.WalletLemmas

open Psce Psce.Wallet Psce.Base58 Psce.BaseConv Psce.HexLemmas

theorem versionBuffer_eq : versionBuffer = [0x83] := rfl

theorem sha256d_length (l : List Nat) : (sha256d l).length = 32 :=
  Sha256.sha256_length _

theorem finalData_lt (pub : Str) : ∀ b ∈ finalData pub, b < 256 := by
  intro b hb
  rw [finalData] at hb
  rcases List.mem_append.mp hb with h12 | h3
  · rcases List.mem_append.mp h12 with h1 | h2
    · rw [versionBuffer_eq] at h1
      simp only [List.mem_singleton] at h1
      omega
    · exact hexToBytesJS_lt _ b h2
  · exact Sha256.sha256_lt _ b (List.take_subset _ _ h3)

theorem resolvePrefix_PR (rest : Str) :
    resolvePrefix ('P' :: 'R' :: rest) = "PR".data := by
  simp [resolvePrefix, possiblePrefixes, List.find?, List.isPrefixOf]

theorem resolvePrefix_TZ (rest : Str) :
    resolvePrefix ('T' :: 'Z' :: rest) = "TZ".data := by
  simp [resolvePrefix, possiblePrefixes, List.find?, List.isPrefixOf]

theorem resolvePrefix_MR (rest : Str) :
    resolvePrefix ('M' :: 'R' :: rest) = "MR".data := by
  simp [resolvePrefix, possiblePrefixes, List.find?, List.isPrefixOf]

theorem resolvePrefix_AA (rest : Str) :
    resolvePrefix ('A' :: 'A' :: rest) = "AA".data := by
  simp [resolvePrefix, possiblePrefixes, List.find?, List.isPrefixOf]

theorem resolvePrefix_PS (rest : Str) :
    resolvePrefix ('P' :: 'S' :: rest) = "PS".data := by
  simp [resolvePrefix, possiblePrefixes, List.find?, List.isPrefixOf]

theorem resolvePrefix_CHAIN (rest : Str) :
    resolvePrefix ('C' :: 'H' :: 'A' :: 'I' :: 'N' :: rest) = "CHAIN".data := by
  simp [resolvePrefix, possiblePrefixes, List.find?, List.isPrefixOf]

/-- For every recognized chain prefix, the prefix resolution of
`isValidAddress` recovers exactly that prefix on any derived address. -/
theorem resolvePrefix_known (p : Str) (hp : p ∈ possiblePrefixes) (rest : Str) :
    resolvePrefix (p ++ rest) = p := by
  simp only [possiblePrefixes, List.mem_cons, List.not_mem_nil, or_false] at hp
  rcases hp with rfl | rfl | rfl | rfl | rfl | rfl
  · exact resolvePrefix_PR rest
  · exact resolvePrefix_TZ rest
  · exact resolvePrefix_MR rest
  · exact resolvePrefix_AA rest
  · exact resolvePrefix_PS rest
  · exact resolvePrefix_CHAIN rest

/-- The split of `finalData` that `isValidAddress` recomputes (note `++` is
left-associative, so this is the definition's own grouping). -/
theorem finalData_split (pub : Str) :
    finalData pub =
      (versionBuffer ++ convertData pub) ++ convertChecksum pub := rfl

theorem convertChecksum_length (pub : Str) :
    (convertChecksum pub).length = 4 := by
  rw [convertChecksum, List.length_take, sha256d_length]
  omega

/-- Validation accepts every address derived with a recognized chain prefix:
the prefix resolves to itself, the base58 payload decodes back to
`finalData`, and the trailing checksum is by construction the double-SHA-256
of the leading bytes. -/
theorem isValidAddress_convertToBase58 (pub : Str) (p : Str)
    (hp : p ∈ possiblePrefixes) :
    isValidAddress (convertToBase58 pub (some p)) = true := by
  have haddr : convertToBase58 pub (some p) =
      p ++ b58Encode (finalData pub) := rfl
  rw [haddr, isValidAddress, resolvePrefix_known p hp, List.drop_left,
    b58_roundtrip _ (finalData_lt pub)]
  show (List.drop ((finalData pub).length - 4) (finalData pub) ==
      List.take 4 (sha256d
        (List.take ((finalData pub).length - 4) (finalData pub)))) = true
  have hlen : (finalData pub).length - 4 =
      (versionBuffer ++ convertData pub).length := by
    rw [finalData_split, List.length_append, convertChecksum_length]
    omega
  rw [hlen, finalData_split, List.take_left, List.drop_left, convertChecksum]
  exact beq_self_eq_true _

theorem takeWhile_len_le {α : Type} (p : α → Bool) (l : List α) :
    (l.takeWhile p).length ≤ l.length := by
  induction l with
  | nil => simp [List.takeWhile]
  | cons a t ih =>
    rw [List.takeWhile_cons]
    by_cases h : p a = true
    · rw [if_pos h]
      simp only [List.length_cons]
      omega
    · rw [if_neg h]
      simp

theorem digitsOf_length : ∀ (s : Str) (ds : List Nat),
    digitsOf s = some ds → ds.length = s.length := by
  intro s
  induction s with
  | nil => intro ds h; simp [digitsOf] at h; subst h; rfl
  | cons c rest ih =>
    intro ds h
    simp only [digitsOf] at h
    rcases hc : charIdx c with _ | d <;> rw [hc] at h
    · simp at h
    · rcases hr : digitsOf rest with _ | ds' <;> rw [hr] at h
      · simp at h
      · simp only [Option.some.injEq] at h
        subst h
        simp [ih ds' hr]

theorem unfold_length_le_fuel (B : Nat) :
    ∀ fuel n, (BaseConv.unfold B fuel n).length ≤ fuel := by
  intro fuel
  induction fuel with
  | zero => intro n; simp [BaseConv.unfold]
  | succ fuel ih =>
    intro n
    by_cases h0 : n = 0
    · simp [h0, unfold_zero]
    · simp only [BaseConv.unfold, h0, if_false, List.length_append,
        List.length_cons, List.length_nil]
      have := ih (n / B)
      omega

theorem b58Decode_some_length (s : Str) (d : List Nat)
    (h : b58Decode s = some d) : d.length ≤ 2 * s.length := by
  rw [b58Decode] at h
  rcases hds : digitsOf s with _ | ds <;> rw [hds] at h
  · simp at h
  · simp only [Option.map_some', Option.some.injEq] at h
    subst h
    rw [List.length_append, List.length_replicate]
    have h1 : (ds.takeWhile (· = 0)).length ≤ ds.length :=
      takeWhile_len_le _ ds
    have h2 := unfold_length_le_fuel 256 s.length (val 58 ds)
    have h3 := digitsOf_length s ds hds
    omega

/-- A string accepted by `isValidAddress` has at least two characters, so
`getAddressPrefix` cannot throw on it. -/
theorem isValidAddress_length (a : Str) (h : isValidAddress a = true) :
    2 ≤ a.length := by
  rw [isValidAddress] at h
  rcases hdec : b58Decode (a.drop (resolvePrefix a).length) with _ | decoded <;>
    rw [hdec] at h
  · simp at h
  · have heq : decoded.drop (decoded.length - 4) =
        (sha256d (decoded.take (decoded.length - 4))).take 4 := by
      simpa using h
    have hlen : (decoded.drop (decoded.length - 4)).length =
        ((sha256d (decoded.take (decoded.length - 4))).take 4).length :=
      congrArg List.length heq
    rw [List.length_drop, List.length_take, sha256d_length] at hlen
    have hd4 : 4 ≤ decoded.length := by omega
    have hle := b58Decode_some_length _ _ hdec
    have hdroplen : (a.drop (resolvePrefix a).length).length ≤ a.length := by
      rw [List.length_drop]; omega
    omega

end Psce.WalletLemmas

namespace Psce.Bip39Lemmas

open Psce Psce.Bip39 Psce.BaseConv

theorem toBitsW_length (w : Nat) : ∀ n, (toBitsW w n).length = w := by
  induction w with
  | zero => intro n; rfl
  | succ w ih => intro n; simp [toBitsW, ih]

theorem toBitsW_lt (w : Nat) : ∀ n, ∀ d ∈ toBitsW w n, d < 2 := by
  induction w with
  | zero => intro n d hd; simp [toBitsW] at hd
  | succ w ih =>
    intro n d hd
    simp only [toBitsW, List.mem_append, List.mem_singleton] at hd
    rcases hd with hd | hd
    · exact ih _ d hd
    · subst hd; exact Nat.mod_lt _ (by norm_num)

theorem val2_toBitsW (w : Nat) : ∀ n, n < 2 ^ w → val 2 (toBitsW w n) = n := by
  induction w with
  | zero =>
    intro n hn
    have : n = 0 := by simpa using hn
    simp [this, toBitsW, val]
  | succ w ih =>
    intro n hn
    have hdiv : n / 2 < 2 ^ w := by
      have h2 : 2 ^ (w + 1) = 2 * 2 ^ w := by ring
      omega
    simp only [toBitsW]
    rw [val_append, ih _ hdiv]
    have hv1 : val 2 [n % 2] = n % 2 := by simp [val_cons, val_nil]
    have hl1 : ([n % 2] : List Nat).length = 1 := rfl
    rw [hv1, hl1, pow_one]
    omega

theorem toBitsW_val (l : List Nat) (h : ∀ d ∈ l, d < 2) :
    toBitsW l.length (val 2 l) = l := by
  induction l using List.reverseRecOn with
  | nil => rfl
  | append_singleton t d ih =>
    have hd : d < 2 := h d (by simp)
    have hval : val 2 (t ++ [d]) = val 2 t * 2 + d := by
      rw [val_append]; simp [val_cons, val_nil]
    rw [hval, List.length_append, List.length_singleton]
    simp only [toBitsW]
    have hdiv : (val 2 t * 2 + d) / 2 = val 2 t := by omega
    have hmod : (val 2 t * 2 + d) % 2 = d := by omega
    rw [hdiv, hmod, ih (fun x hx => h x (List.mem_append_left _ hx))]

theorem bits2Bytes_append8 (l r : List Nat) (hl : l.length = 8) :
    bits2Bytes (l ++ r) = val 2 l :: bits2Bytes r := by
  rcases l with _ | ⟨b0, l⟩; · simp at hl
  rcases l with _ | ⟨b1, l⟩; · simp at hl
  rcases l with _ | ⟨b2, l⟩; · simp at hl
  rcases l with _ | ⟨b3, l⟩; · simp at hl
  rcases l with _ | ⟨b4, l⟩; · simp at hl
  rcases l with _ | ⟨b5, l⟩; · simp at hl
  rcases l with _ | ⟨b6, l⟩; · simp at hl
  rcases l with _ | ⟨b7, l⟩; · simp at hl
  rcases l with _ | ⟨b8, l⟩
  · rfl
  · simp at hl

theorem bytes2Bits_length (bs : List Nat) :
    (bytes2Bits bs).length = 8 * bs.length := by
  induction bs with
  | nil => rfl
  | cons b t ih =>
    simp only [bytes2Bits, List.flatMap_cons, List.length_append,
      toBitsW_length, List.length_cons] at *
    omega

theorem bytes2Bits_lt (bs : List Nat) : ∀ d ∈ bytes2Bits bs, d < 2 := by
  intro d hd
  simp only [bytes2Bits, List.mem_flatMap] at hd
  obtain ⟨b, _, hd⟩ := hd
  exact toBitsW_lt 8 b d hd

theorem bits2Bytes_bytes2Bits (bs : List Nat) (h : ∀ b ∈ bs, b < 256) :
    bits2Bytes (bytes2Bits bs) = bs := by
  induction bs with
  | nil => rfl
  | cons b t ih =>
    have hb : b < 256 := h b (List.mem_cons_self b t)
    simp only [bytes2Bits, List.flatMap_cons]
    rw [bits2Bytes_append8 _ _ (toBitsW_length 8 b)]
    rw [val2_toBitsW 8 b (by norm_num at hb ⊢; omega)]
    have hrw : t.flatMap (toBitsW 8) = bytes2Bits t := rfl
    rw [hrw, ih (fun x hx => h x (List.mem_cons_of_mem b hx))]

theorem chunks11_lt (l : List Nat) (h : ∀ d ∈ l, d < 2) :
    ∀ i ∈ chunks11 l, i < 2048 := by
  induction l using chunks11.induct with
  | case1 b0 b1 b2 b3 b4 b5 b6 b7 b8 b9 b10 rest ih =>
    intro i hi
    rw [chunks11] at hi
    rcases List.mem_cons.mp hi with hi | hi
    · subst hi
      have := val_lt 2 (by norm_num)
        [b0, b1, b2, b3, b4, b5, b6, b7, b8, b9, b10]
        (fun d hd => h d (by
          simp only [List.mem_cons, List.not_mem_nil, or_false] at hd
          simp only [List.mem_cons]
          tauto))
      simpa using this
    · exact ih (fun d hd => h d (by simp [hd])) i hi
  | case2 l hshape =>
    intro i hi
    rw [chunks11] at hi
    · simp at hi
    · exact hshape

theorem chunks11_flat (l : List Nat) (h2 : ∀ d ∈ l, d < 2)
    (h11 : l.length % 11 = 0) : (chunks11 l).flatMap (toBitsW 11) = l := by
  induction l using chunks11.induct with
  | case1 b0 b1 b2 b3 b4 b5 b6 b7 b8 b9 b10 rest ih =>
    rw [chunks11]
    simp only [List.flatMap_cons]
    have hmem : ∀ d ∈ ([b0, b1, b2, b3, b4, b5, b6, b7, b8, b9, b10] : List Nat),
        d < 2 := fun d hd => h2 d (by
      simp only [List.mem_cons, List.not_mem_nil, or_false] at hd
      simp only [List.mem_cons]
      tauto)
    have hbits : toBitsW 11
        (val 2 [b0, b1, b2, b3, b4, b5, b6, b7, b8, b9, b10]) =
        [b0, b1, b2, b3, b4, b5, b6, b7, b8, b9, b10] := by
      have := toBitsW_val [b0, b1, b2, b3, b4, b5, b6, b7, b8, b9, b10] hmem
      simpa using this
    rw [hbits]
    have hrest : rest.length % 11 = 0 := by
      simp only [List.length_cons] at h11
      omega
    rw [ih (fun d hd => h2 d (by simp [hd])) hrest]
    simp
  | case2 l hshape =>
    rcases l with _ | ⟨a0, l⟩
    · rfl
    rcases l with _ | ⟨a1, l⟩; · simp at h11
    rcases l with _ | ⟨a2, l⟩; · simp at h11
    rcases l with _ | ⟨a3, l⟩; · simp at h11
    rcases l with _ | ⟨a4, l⟩; · simp at h11
    rcases l with _ | ⟨a5, l⟩; · simp at h11
    rcases l with _ | ⟨a6, l⟩; · simp at h11
    rcases l with _ | ⟨a7, l⟩; · simp at h11
    rcases l with _ | ⟨a8, l⟩; · simp at h11
    rcases l with _ | ⟨a9, l⟩; · simp at h11
    rcases l with _ | ⟨a10, l⟩; · simp at h11
    exact (hshape a0 a1 a2 a3 a4 a5 a6 a7 a8 a9 a10 l rfl).elim

end Psce.Bip39Lemmas

namespace Psce.Bip39Lemmas

open Psce Psce.Bip39 Psce.BaseConv

theorem digitOfChar_ofNat : ∀ d < 10,
    digitOfChar (Char.ofNat ('0'.toNat + d)) = some d := by decide

theorem mapM_digitOfChar (ds : List Nat) (h : ∀ d ∈ ds, d < 10) :
    (ds.map (fun d => Char.ofNat ('0'.toNat + d))).mapM digitOfChar =
      some ds := by
  induction ds with
  | nil => rfl
  | cons d t ih =>
    have hd : d < 10 := h d (List.mem_cons_self d t)
    rw [List.map_cons, List.mapM_cons, digitOfChar_ofNat d hd,
      ih (fun x hx => h x (List.mem_cons_of_mem d hx))]
    rfl

/-- The modelled wordlist lookup inverts the modelled word rendering on
every index below 2048. -/
theorem wordIndexOf_wordAt (i : Nat) (hi : i < 2048) :
    wordIndexOf (wordAt i) = some i := by
  have hilt : i < 10 ^ (i + 1) := by
    calc i < 10 ^ i := Nat.lt_pow_self (by norm_num) i
      _ ≤ 10 ^ (i + 1) := Nat.pow_le_pow_right (by norm_num) (by omega)
  have hdig : ∀ d ∈ unfold 10 (i + 1) i, d < 10 :=
    fun d hd => unfold_elem_lt 10 (by norm_num) _ _ d hd
  rw [wordAt, wordIndexOf, mapM_digitOfChar _ hdig]
  by_cases h0 : i = 0
  · subst h0
    simp [unfold_zero, val_nil]
  · obtain ⟨d0, t, heq, hpos⟩ :=
      unfold_head_pos 10 (by norm_num) (i + 1) i (Nat.pos_of_ne_zero h0) hilt
    rw [heq]
    have hhead : (d0 :: t).head? ≠ some 0 := by
      intro hcon
      rw [List.head?_cons] at hcon
      injection hcon with hcon
      omega
    simp only [hhead, if_false]
    rw [← heq, val_unfold 10 (by norm_num) _ _ hilt]
    simp [hi]

theorem mapM_wordIndexOf (idxs : List Nat) (h : ∀ i ∈ idxs, i < 2048) :
    (idxs.map wordAt).mapM wordIndexOf = some idxs := by
  induction idxs with
  | nil => rfl
  | cons i t ih =>
    have hi : i < 2048 := h i (List.mem_cons_self i t)
    rw [List.map_cons, List.mapM_cons, wordIndexOf_wordAt i hi,
      ih (fun x hx => h x (List.mem_cons_of_mem i hx))]
    rfl

/-- Lower-case-hex characters (the alphabet `bytesToHex` emits and
`getPrivate("hex")` produces). -/
def isLowerHex (c : Char) : Bool :=
  ('0' ≤ c && c ≤ '9') || ('a' ≤ c && c ≤ 'f')

theorem isLowerHex_ranges (c : Char) (hlh : isLowerHex c = true) :
    (48 ≤ c.toNat ∧ c.toNat ≤ 57) ∨ (97 ≤ c.toNat ∧ c.toNat ≤ 102) := by
  unfold isLowerHex at hlh
  simp only [Bool.or_eq_true, Bool.and_eq_true, decide_eq_true_eq,
    Char.le_def] at hlh
  exact hlh

theorem hexDigit_hexVal (c : Char) (v : Nat) (hlh : isLowerHex c = true)
    (h : Psce.hexVal c = some v) : Psce.hexDigit v = c := by
  have hr := isLowerHex_ranges c hlh
  simp only [Psce.hexVal] at h
  split at h
  · injection h with h
    rw [Psce.hexDigit, if_pos (by omega)]
    have h48 : 48 + v = c.toNat := by omega
    rw [h48, Char.ofNat_toNat]
  · split at h
    · injection h with h
      rw [Psce.hexDigit, if_neg (by omega)]
      have h87 : 87 + v = c.toNat := by omega
      rw [h87, Char.ofNat_toNat]
    · split at h
      · exfalso
        omega
      · exact absurd h (by simp)

theorem isLowerHex_hexVal_isSome (c : Char) (hlh : isLowerHex c = true) :
    ∃ v, Psce.hexVal c = some v := by
  have hr := isLowerHex_ranges c hlh
  simp only [Psce.hexVal]
  rcases hr with h1 | h2
  · rw [if_pos (by omega)]
    exact ⟨_, rfl⟩
  · by_cases hd : 48 ≤ c.toNat ∧ c.toNat ≤ 57
    · rw [if_pos hd]
      exact ⟨_, rfl⟩
    · rw [if_neg hd, if_pos (by omega)]
      exact ⟨_, rfl⟩

/-- On even-length lower-case-hex text, re-rendering the parsed bytes gives
back the original text. -/
theorem bytesToHex_hexToBytesJS (x : Str)
    (hlh : ∀ c ∈ x, isLowerHex c = true) (heven : x.length % 2 = 0) :
    Psce.bytesToHex (Psce.hexToBytesJS x) = x := by
  induction x using Psce.hexToBytesJS.induct with
  | case1 c1 c2 rest h l hcl hch ih =>
    rw [Psce.hexToBytesJS]
    simp only [hcl, hch]
    have hh := Psce.HexLemmas.hexVal_lt c1 h hch
    have hl := Psce.HexLemmas.hexVal_lt c2 l hcl
    have hrw : Psce.bytesToHex ((16 * h + l) :: Psce.hexToBytesJS rest) =
        Psce.hexDigit ((16 * h + l) / 16 % 16) ::
          Psce.hexDigit ((16 * h + l) % 16) ::
          Psce.bytesToHex (Psce.hexToBytesJS rest) := rfl
    rw [hrw]
    have hdiv : (16 * h + l) / 16 % 16 = h := by omega
    have hmod : (16 * h + l) % 16 = l := by omega
    rw [hdiv, hmod]
    rw [hexDigit_hexVal c1 h (hlh c1 (by simp)) hch]
    rw [hexDigit_hexVal c2 l (hlh c2 (by simp)) hcl]
    rw [ih (fun c hc => hlh c (by simp [hc])) (by
      simp only [List.length_cons] at heven
      omega)]
  | case2 c1 c2 rest hm =>
    exfalso
    obtain ⟨v1, hv1⟩ := isLowerHex_hexVal_isSome c1 (hlh c1 (by simp))
    obtain ⟨v2, hv2⟩ := isLowerHex_hexVal_isSome c2 (hlh c2 (by simp))
    exact hm v1 v2 hv1 hv2
  | case3 s hs =>
    rcases s with _ | ⟨c, s⟩
    · rfl
    · rcases s with _ | ⟨c2, s⟩
      · simp at heven
      · exact (hs c c2 s rfl).elim

theorem bytesToHex_length (bs : List Nat) :
    (Psce.bytesToHex bs).length = 2 * bs.length := by
  induction bs with
  | nil => rfl
  | cons b t ih =>
    have hrw : Psce.bytesToHex (b :: t) =
        Psce.hexDigit (b / 16 % 16) :: Psce.hexDigit (b % 16) ::
          Psce.bytesToHex t := rfl
    rw [hrw]
    simp only [List.length_cons, ih]
    omega

end Psce.Bip39Lemmas

namespace Psce.Bip39Lemmas

open Psce Psce.Bip39 Psce.BaseConv

theorem flatMap_toBitsW11_length (idxs : List Nat) :
    (idxs.flatMap (toBitsW 11)).length = 11 * idxs.length := by
  induction idxs with
  | nil => rfl
  | cons i t ih =>
    simp only [List.flatMap_cons, List.length_append, toBitsW_length,
      List.length_cons, ih]
    omega

/-- Reduction of `mnemonicToEntropy` once the word count divides by 3 and
every word resolves to an index. -/
theorem mnemonicToEntropy_some (ws : List Str) (idxs : List Nat)
    (h3 : ws.length % 3 = 0) (hm : ws.mapM wordIndexOf = some idxs) :
    mnemonicToEntropy ws =
      (let bits := idxs.flatMap (toBitsW 11)
       let dividerIndex := bits.length / 33 * 32
       let entropyBytes := bits2Bytes (bits.take dividerIndex)
       if entropyBytes.length < 16 ∨ 32 < entropyBytes.length ∨
           entropyBytes.length % 4 ≠ 0 then
         Except.error "Invalid entropy".data
       else if checksumBits entropyBytes ≠ bits.drop dividerIndex then
         Except.error "Invalid mnemonic checksum".data
       else
         Except.ok (Psce.bytesToHex entropyBytes)) := by
  rw [mnemonicToEntropy, if_neg (not_not_intro h3), hm]

/-- Converting entropy to a phrase and back recovers exactly the entropy
bytes (rendered in lower-case hex): the embedded checksum re-verifies and
the bit packing is lossless. -/
theorem mnemonicToEntropy_entropyWords (bs : List Nat)
    (hlb : 16 ≤ bs.length) (hub : bs.length ≤ 32) (hm4 : bs.length % 4 = 0)
    (hlt : ∀ b ∈ bs, b < 256) :
    mnemonicToEntropy
        ((chunks11 (bytes2Bits bs ++ checksumBits bs)).map wordAt) =
      Except.ok (Psce.bytesToHex bs) := by
  set L := bs.length with hL
  set bits := bytes2Bits bs ++ checksumBits bs with hbits
  have hbits2 : ∀ d ∈ bits, d < 2 := by
    intro d hd
    rw [hbits] at hd
    rcases List.mem_append.mp hd with h | h
    · exact bytes2Bits_lt bs d h
    · rw [checksumBits] at h
      exact bytes2Bits_lt _ d (List.take_subset _ _ h)
  have hcslen : (checksumBits bs).length = L / 4 := by
    rw [checksumBits, List.length_take, bytes2Bits_length,
      Sha256.sha256_length]
    omega
  have hblen : bits.length = 33 * (L / 4) := by
    rw [hbits, List.length_append, bytes2Bits_length, hcslen]
    omega
  have hb11 : bits.length % 11 = 0 := by omega
  have hidxlt : ∀ i ∈ chunks11 bits, i < 2048 := chunks11_lt bits hbits2
  have hmapM := mapM_wordIndexOf (chunks11 bits) hidxlt
  have hflat := chunks11_flat bits hbits2 hb11
  have hidxlen : (chunks11 bits).length = 3 * (L / 4) := by
    have h1 := flatMap_toBitsW11_length (chunks11 bits)
    rw [hflat] at h1
    omega
  have hwords3 : ((chunks11 bits).map wordAt).length % 3 = 0 := by
    rw [List.length_map, hidxlen]
    omega
  rw [mnemonicToEntropy_some ((chunks11 bits).map wordAt) (chunks11 bits)
    hwords3 hmapM]
  simp only [hflat]
  have hdiv : bits.length / 33 * 32 = 8 * L := by
    rw [hblen]; omega
  rw [hdiv]
  have h8 : 8 * L = (bytes2Bits bs).length := by rw [bytes2Bits_length]
  have htake : bits.take (8 * L) = bytes2Bits bs := by
    rw [hbits, h8, List.take_left]
  have hdrop : bits.drop (8 * L) = checksumBits bs := by
    rw [hbits, h8, List.drop_left]
  rw [htake, hdrop, bits2Bytes_bytes2Bits bs hlt]
  rw [if_neg (by omega)]
  rw [if_neg (not_not_intro rfl)]

end Psce.Bip39Lemmas

namespace Psce.Session

open Psce

/-- The in-memory `this.session` object of `PSCESecurityManager`
(`src/lib/security-manager.js`): `lastActivity` is a `Date.now()` timestamp
or `null`, `timeout` is in milliseconds, `masterKey` caches a password (or
the random key `ensureSession` fabricates). -/
structure Session where
  lastActivity : Option Nat
  timeout : Nat
  masterKey : Option Str
  isActive : Bool
deriving DecidableEq

/-- The constructor's session: ten-minute timeout, inactive, nothing
cached. -/
def initialSession : Session :=
  { lastActivity := none, timeout := 10 * 60 * 1000,
    masterKey := none, isActive := false }

/-- Symbolic model of one stored `EncryptedSecret`: `aes-256-cbc` under an
`scrypt`-derived key is treated as an abstract authenticated box — the
record keeps the password the secret was encrypted under and the plaintext;
decrypting with any other password throws the "bad decrypt" error the code
maps to its incorrect-password message.  No claim here depends on cipher
internals. -/
structure EncryptedData where
  password : Str
  plaintext : Str
deriving DecidableEq

/-- How the native `keytar` behaves in this process: available, failing
with a capability error (message containing "D-Bus" or "DISPLAY"), or
failing with some other error message. -/
inductive KeytarOutcome where
  | ok
  | capabilityError
  | otherError (msg : Str)
deriving DecidableEq

/-- Process environment: the display detection done in the constructor and
the behaviour of native keytar calls. -/
structure Env where
  isLinuxWithoutDisplay : Bool
  keytar : KeytarOutcome
deriving DecidableEq

/-- Store state: the native credential store for plain namespaced values,
the fallback file (`networksFile`), and the wallet namespace (whose values
are JSON-encoded `EncryptedSecret`s, kept structured here). -/
structure St where
  session : Session
  keytarStore : List (Str × Str)
  fileStore : List (Str × Str)
  walletStore : List (Str × EncryptedData)
deriving DecidableEq

/-- A fresh manager over given stored data. -/
def initSt (wallets : List (Str × EncryptedData)) : St :=
  { session := initialSession, keytarStore := [], fileStore := [],
    walletStore := wallets }

/-- Association-list update (last write wins, as in the JSON object / the
credential store). -/
def setEntry (l : List (Str × Str)) (k v : Str) : List (Str × Str) :=
  (k, v) :: l.filter (fun e => ¬ e.1 = k)

/-- `fileBasedSet`: write the key into the fallback JSON file. -/
def fileBasedSet (st : St) (key value : Str) : St :=
  { st with fileStore := setEntry st.fileStore key value }

/-- `fileBasedGet`. -/
def fileBasedGet (st : St) (key : Str) : Option Str :=
  (st.fileStore.find? (fun e => e.1 = key)).map (fun e => e.2)

/-- `fileBasedDelete`. -/
def fileBasedDelete (st : St) (key : Str) : St :=
  { st with fileStore := st.fileStore.filter (fun e => ¬ e.1 = key) }

/-- `safeKeytarSet`: prefer the file when the display is known missing; on
a capability error from keytar, warn and retry the same call against the
file within the same invocation; any other error is rethrown. -/
def safeKeytarSet (env : Env) (st : St) (key value : Str) : Except Str St :=
  if env.isLinuxWithoutDisplay then .ok (fileBasedSet st key value)
  else
    match env.keytar with
    | .ok => .ok { st with keytarStore := setEntry st.keytarStore key value }
    | .capabilityError => .ok (fileBasedSet st key value)
    | .otherError m => .error m

/-- `safeKeytarGet`. -/
def safeKeytarGet (env : Env) (st : St) (key : Str) :
    Except Str (Option Str) :=
  if env.isLinuxWithoutDisplay then .ok (fileBasedGet st key)
  else
    match env.keytar with
    | .ok => .ok ((st.keytarStore.find? (fun e => e.1 = key)).map (·.2))
    | .capabilityError => .ok (fileBasedGet st key)
    | .otherError m => .error m

/-- `safeKeytarDelete`. -/
def safeKeytarDelete (env : Env) (st : St) (key : Str) : Except Str St :=
  if env.isLinuxWithoutDisplay then .ok (fileBasedDelete st key)
  else
    match env.keytar with
    | .ok => .ok { st with keytarStore :=
        st.keytarStore.filter (fun e => ¬ e.1 = key) }
    | .capabilityError => .ok (fileBasedDelete st key)
    | .otherError m => .error m

/-- `decryptWallet(address, masterPassword)`: reads the stored record with
a DIRECT `keytar.getPassword` call (not the safe wrapper), so any keytar
failure propagates; a missing record is "Wallet not found"; a password
mismatch is the "bad decrypt" path mapped to the incorrect-password
message. -/
def decryptWallet (env : Env) (st : St) (address : Str) (pw : Str) :
    Except Str Str :=
  match env.keytar with
  | .ok =>
    match st.walletStore.find? (fun e => e.1 = address) with
    | none => .error ("Wallet not found: ".data ++ address)
    | some e =>
      if e.2.password = pw then .ok e.2.plaintext
      else .error "Incorrect master password or corrupted wallet data".data
  | .capabilityError => .error "D-Bus error".data
  | .otherError m => .error m

/-- `isSessionValid()`: active, with a truthy `lastActivity`, and the
elapsed time strictly below the timeout. -/
def isSessionValid (s : Session) (now : Nat) : Bool :=
  if !s.isActive || s.lastActivity.getD 0 == 0 then false
  else now - s.lastActivity.getD 0 < s.timeout

/-- Observable events of a run: a master-password prompt was shown, or an
entered password was verified by successfully decrypting a stored wallet
(the only password check the code performs). -/
inductive Event where
  | prompted
  | verified
deriving DecidableEq

/-- The session-touching operations of `PSCESecurityManager`.  Interactive
input is externalized: each operation that prompts carries the password the
user would type, and each operation that reads the clock carries `now`. -/
inductive Op where
  | ensureSession (now : Nat) (rnd : Str)
  | getWallet (address pw : Str)
  | getWalletFresh (address pw : Str) (now : Nat)
  | getWalletFromSession (address : Str) (now : Nat)
  | storeWallet (address pw priKey : Str)
  | clearSession
deriving DecidableEq

/-- One operation of the manager, following `src/lib/security-manager.js`
line by line; the result string is the operation's return value. -/
def step (env : Env) (st : St) : Op → St × List Event × Except Str Str
  | .ensureSession now rnd =>
    -- no password interaction at all: a missing session is fabricated
    -- with a random masterKey, then lastActivity is refreshed
    let s0 := st.session
    let s1 := if !s0.isActive then
        { s0 with
          isActive := true
          lastActivity := some now
          masterKey := some rnd }
      else s0
    ({ st with session := { s1 with lastActivity := some now } }, [], .ok [])
  | .getWallet address pw =>
    -- "For now, always ask for master password": prompts unconditionally,
    -- never consults or updates the session
    match decryptWallet env st address pw with
    | .ok k => (st, [.prompted, .verified], .ok k)
    | .error m => (st, [.prompted], .error m)
  | .getWalletFresh address pw now =>
    match decryptWallet env st address pw with
    | .ok k =>
      let s0 := st.session
      let s1 := if s0.timeout > 0 then
          { s0 with
            masterKey := some pw
            lastActivity := some now
            isActive := true }
        else s0
      ({ st with session := s1 }, [.prompted, .verified], .ok k)
    | .error m => (st, [.prompted], .error m)
  | .getWalletFromSession address now =>
    match st.session.masterKey with
    | none => (st, [], .error "No active session".data)
    | some mk =>
      match decryptWallet env st address mk with
      | .ok k =>
        let s0 := st.session
        let s1 := if s0.timeout > 0 then { s0 with lastActivity := some now }
          else s0
        ({ st with session := s1 }, [], .ok k)
      | .error m => (st, [], .error m)
  | .storeWallet address pw priKey =>
    -- direct keytar.setPassword, not the safe wrapper: every keytar
    -- failure is logged and rethrown
    match env.keytar with
    | .ok =>
      ({ st with walletStore :=
          (address, ⟨pw, priKey⟩) ::
            st.walletStore.filter (fun e => ¬ e.1 = address) },
        [.prompted], .ok [])
    | .capabilityError => (st, [.prompted], .error "D-Bus error".data)
    | .otherError m => (st, [.prompted], .error m)
  | .clearSession =>
    ({ st with session :=
        { st.session with
          masterKey := none
          lastActivity := none
          isActive := false } }, [], .ok [])

/-- Run a list of operations, accumulating the emitted events. -/
def run (env : Env) (st : St) : List Op → St × List Event
  | [] => (st, [])
  | op :: ops =>
    let r := step env st op
    let rest := run env r.1 ops
    (rest.1, r.2.1 ++ rest.2)

end Psce.Session

namespace Psce.Claims

open Psce Psce.Wallet Psce.WalletLemmas Psce.Base58 Psce.HexLemmas

/-- The private scalar `1`, as 32-byte lower-case hex text (a valid
secp256k1 private key as `elliptic` renders one). -/
def priv1 : Str :=
  "0000000000000000000000000000000000000000000000000000000000000001".data

/-- The uncompressed public point of scalar 1 — the secp256k1 generator —
exactly as `getPubKeyFromPrivate` renders it. -/
def pubG : Str :=
  ("0479be667ef9dcbbac55a06295ce870b07029bfcdb2dce28d959f2815b16f81798" ++
   "483ada7726a3c4655da4fbfc0e1108a8fd17b448a68554199c47d08ffb10d4b8").data

/-- `pubG` really is the public point the code derives for `priv1`. -/
theorem pubG_spec : Secp256k1.getPubKeyFromPrivate priv1 = some pubG := by
  decide

/-- The RIPEMD-160 digest bytes inside every derived address payload
(`RIPEMD160(sha256.x2(publicPointHexText))` over text, as the code
hashes). -/
def ripemdBytes (pub : Str) : List Nat :=
  Ripemd160.ripemd160 (utf8 (sha256x2 pub))

/-- The embedded checksum bytes: the first 4 digest bytes behind the first
8 hex characters of `sha256.x2(sha256.x2("83" + ripemdHex))` (the outer
`x2` hashes the hex text of the inner one, chaining raw digests within
itself). -/
def embCk (pub : Str) : List Nat :=
  (sha256d (utf8
    (sha256x2 ("83".data ++ ripemd160Hex (sha256x2 pub))))).take 4

/-- Payload layout the spec sentence describes for C1: the version byte
occurring exactly once, then the RIPEMD digest, the embedded checksum, and
an outer checksum computed over `versionByte ‖ ripemdDigest ‖
embeddedChecksum`. -/
def specPayloadC1 (pub : Str) : List Nat :=
  let body := 0x83 :: ripemdBytes pub ++ embCk pub
  body ++ (sha256d body).take 4

/-- C1 (counterexample): at the generator public point, the base58 payload
of the derived address decodes to 30 bytes beginning `0x83 0x83` — the
version byte appears twice, not "exactly once at the start", and the
decoded payload is not the spec's 29-byte layout. -/
theorem C1_counterexample :
    (b58Decode ((convertToBase58 pubG (some "PR".data)).drop 2)).map
        (List.take 2) = some [0x83, 0x83] ∧
    (b58Decode ((convertToBase58 pubG (some "PR".data)).drop 2)).map
        List.length = some 30 ∧
    b58Decode ((convertToBase58 pubG (some "PR".data)).drop 2) ≠
      some (specPayloadC1 pubG) := by
  decide

theorem hexToBytesJS_cons83 (rest : Str) :
    hexToBytesJS ('8' :: '3' :: rest) = 0x83 :: hexToBytesJS rest := by
  simp [hexToBytesJS, hexVal]

theorem bytesToHex_take (bs : List Nat) :
    ∀ k, (Psce.bytesToHex bs).take (2 * k) = Psce.bytesToHex (bs.take k) := by
  induction bs with
  | nil => intro k; simp [Psce.bytesToHex]
  | cons b t ih =>
    intro k
    cases k with
    | zero => simp [Psce.bytesToHex]
    | succ k =>
      have hrw : Psce.bytesToHex (b :: t) =
          Psce.hexDigit (b / 16 % 16) :: Psce.hexDigit (b % 16) ::
            Psce.bytesToHex t := rfl
      have hrw2 : Psce.bytesToHex (b :: t.take k) =
          Psce.hexDigit (b / 16 % 16) :: Psce.hexDigit (b % 16) ::
            Psce.bytesToHex (t.take k) := rfl
      rw [List.take_succ_cons, hrw, hrw2]
      have h2 : 2 * (k + 1) = (2 * k) + 1 + 1 := by omega
      rw [h2, List.take_succ_cons, List.take_succ_cons, ih k]

/-- The `data` buffer of `convertToBase58` starts with its own copy of the
version byte followed by the RIPEMD digest and the embedded checksum. -/
theorem convertData_layout (pub : Str) :
    convertData pub = 0x83 :: ripemdBytes pub ++ embCk pub := by
  have hextr : base58extracted pub "83".data =
      '8' :: '3' :: (ripemd160Hex (sha256x2 pub) ++
        (sha256x2 (sha256x2 ("83".data ++
          ripemd160Hex (sha256x2 pub)))).take 8) := by
    rw [base58extracted]
    rfl
  rw [convertData, hextr, hexToBytesJS_cons83]
  have hr : ripemd160Hex (sha256x2 pub) =
      Psce.bytesToHex (ripemdBytes pub) := rfl
  have hrlt : ∀ b ∈ ripemdBytes pub, b < 256 := Ripemd160.ripemd160_lt _
  rw [hr, hexToBytesJS_bytesToHex_append _ _ hrlt]
  have hlast : sha256x2 (sha256x2 ("83".data ++
      Psce.bytesToHex (ripemdBytes pub))) =
      Psce.bytesToHex (sha256d (utf8
        (sha256x2 ("83".data ++ ripemd160Hex (sha256x2 pub))))) := rfl
  rw [hlast]
  have h8 : (8 : Nat) = 2 * 4 := rfl
  rw [h8, bytesToHex_take]
  have hsl : ∀ b ∈ (sha256d (utf8 (sha256x2 ("83".data ++
      ripemd160Hex (sha256x2 pub))))).take 4, b < 256 :=
    fun b hb => Sha256.sha256_lt _ b (List.take_subset _ _ hb)
  rw [hexToBytesJS_bytesToHex _ hsl]
  rfl

/-- C1 (amended): for every public-point text and chain prefix, the base58
payload decodes to the byte sequence `0x83 ‖ 0x83 ‖ ripemdDigest ‖
embeddedChecksum ‖ outerChecksum` — the version byte appears twice (once as
`prefixBuffer`, once inside `base58extracted`'s hex string), and the outer
checksum is the first 4 bytes of the double SHA-256 over all preceding
bytes including both version bytes. -/
theorem C1_amended_theorem (pub : Str) (chainPrefix : Str) :
    b58Decode ((convertToBase58 pub (some chainPrefix)).drop
        chainPrefix.length) =
      some ((0x83 :: 0x83 :: ripemdBytes pub ++ embCk pub) ++
        (sha256d (0x83 :: 0x83 :: ripemdBytes pub ++ embCk pub)).take 4) := by
  have haddr : convertToBase58 pub (some chainPrefix) =
      chainPrefix ++ b58Encode (finalData pub) := rfl
  rw [haddr, List.drop_left, b58_roundtrip _ (finalData_lt pub)]
  have hfd : finalData pub =
      (0x83 :: 0x83 :: ripemdBytes pub ++ embCk pub) ++
        (sha256d (0x83 :: 0x83 :: ripemdBytes pub ++ embCk pub)).take 4 := by
    rw [finalData_split, versionBuffer_eq, convertData_layout, convertChecksum,
      versionBuffer_eq, convertData_layout]
    simp
  rw [hfd]

/-- C2 (counterexample): the round-trip `validateAddress ∘ deriveAddress`
fails for prefixes outside the recognized list: with the generator key pair
(derived by the code itself from scalar 1), the lower-case prefix `"pr"`
and the empty prefix both produce addresses `isValidAddress` rejects. -/
theorem C2_counterexample :
    Secp256k1.getPubKeyFromPrivate priv1 = some pubG ∧
    isValidAddress (convertToBase58 pubG (some "pr".data)) = false ∧
    isValidAddress (convertToBase58 pubG (some [])) = false := by
  refine ⟨pubG_spec, ?_, ?_⟩ <;> decide

/-- C2 (amended): for every public-point text and every chain prefix in the
recognized list `["PR","TZ","MR","AA","PS","CHAIN"]`, the derived address
validates; quantification over arbitrary prefixes fails (see the
counterexample) because the prefix-resolution heuristic of
`isValidAddress` can absorb leading upper-case base58 characters or
resolve a different prefix than the one supplied. -/
theorem C2_amended_theorem (pub : Str) (p : Str) (hp : p ∈ possiblePrefixes) :
    isValidAddress (convertToBase58 pub (some p)) = true :=
  isValidAddress_convertToBase58 pub p hp

/-- Witness for C2: the amended theorem applied at the generator public
point and the recognized prefix `"PR"`. -/
theorem C2_witness :
    "PR".data ∈ possiblePrefixes ∧
    isValidAddress (convertToBase58 pubG (some "PR".data)) = true :=
  ⟨by decide, C2_amended_theorem pubG "PR".data (by decide)⟩

end Psce.Claims

namespace Psce.Claims

open Psce Psce.Wallet Psce.WalletLemmas Psce.Base58

/-- The 24-word phrase the modelled `getMnemonic` produces for `priv1`. -/
def words1 : List Str :=
  ["w".data, "w".data, "w".data, "w".data, "w".data, "w".data,
   "w".data, "w".data, "w".data, "w".data, "w".data, "w".data,
   "w".data, "w".data, "w".data, "w".data, "w".data, "w".data,
   "w".data, "w".data, "w".data, "w".data, "w".data, "w492".data]

/-- `words1` really is the phrase of `priv1`. -/
theorem words1_spec : WalletMnemonic.getMnemonic priv1 = .ok words1 := by
  decide

/-- The address `rescuePrivateKey` hands back for `words1` with the
lower-case chain prefix `"pr"`. -/
def addrLower : Str := "prTMRDNLwWkCG5hYhVXNY3hSwE9StHm8cJhBkJfCB51".data

/-- C3 (counterexample): recovering `words1` with `chainPrefix = "pr"`
succeeds and returns an address whose resolved prefix (the empty string —
`"pr"` is neither in the recognized list nor upper-case) differs from the
supplied prefix; no `PrefixMismatchError` exists anywhere in the code. -/
theorem C3_counterexample :
    WalletMnemonic.rescuePrivateKey words1 (some "pr".data) =
      .ok (priv1, addrLower) ∧
    resolvePrefix addrLower = [] ∧
    ([] : Str) ≠ "pr".data := by
  refine ⟨by decide, by decide, by decide⟩

/-- C3 (amended): `rescuePrivateKey` performs no prefix verification at
all: whether it succeeds is independent of the supplied `chainPrefix`, and
on success the address is the supplied prefix prepended verbatim to the
base58 payload — so the literal prefix always matches by construction and
no mismatch failure can occur. -/
theorem C3_amended_theorem (words : List Str) (cp cp' : Str) :
    ((WalletMnemonic.rescuePrivateKey words (some cp)).isOk =
      (WalletMnemonic.rescuePrivateKey words (some cp')).isOk) ∧
    (∀ r, WalletMnemonic.rescuePrivateKey words (some cp) = .ok r →
      r.2.take cp.length = cp) := by
  constructor
  · rcases he : Psce.Bip39.mnemonicToEntropy words with m | pri
    · simp [WalletMnemonic.rescuePrivateKey, he, Except.isOk]
    · rcases hp : Secp256k1.getPubKeyFromPrivate pri with _ | pub <;>
        simp [WalletMnemonic.rescuePrivateKey, he, hp, Except.isOk,
          Except.toBool]
  · intro r hr
    rw [WalletMnemonic.rescuePrivateKey] at hr
    rcases he : Psce.Bip39.mnemonicToEntropy words with m | pri <;>
      rw [he] at hr
    · simp at hr
    · have hr2 : (match Secp256k1.getPubKeyFromPrivate pri with
          | none =>
            Except.error "There is an error. Check your mnemonic words!".data
          | some pubKey =>
            Except.ok (pri, convertToBase58 pubKey (some cp))) =
          Except.ok r := hr
      rcases hp : Secp256k1.getPubKeyFromPrivate pri with _ | pub <;>
        rw [hp] at hr2
      · simp at hr2
      · simp only [Except.ok.injEq] at hr2
        subst hr2
        have haddr : convertToBase58 pub (some cp) =
            cp ++ b58Encode (finalData pub) := rfl
        rw [haddr]
        exact List.take_left cp _

/-- Witness for C3: the amended theorem applied at `words1` and the
prefix `"pr"`. -/
theorem C3_witness : addrLower.take ("pr".data).length = "pr".data :=
  (C3_amended_theorem words1 "pr".data "TZ".data).2 (priv1, addrLower)
    (by decide)

/-- A process with a working native keytar and a display. -/
def env0 : Session.Env := ⟨false, .ok⟩

/-- C4 (counterexample): running only `ensureSession` from the initial
state activates a session (with a fabricated random master key) while
emitting no events at all — no prompt, no master-password verification
ever happened. -/
theorem C4_counterexample :
    (Session.run env0 (Session.initSt [])
        [.ensureSession 5 "r".data]).1.session.isActive = true ∧
    (Session.run env0 (Session.initSt []) [.ensureSession 5 "r".data]).2 =
      [] := by
  refine ⟨by decide, by decide⟩

/-- If a run ends with an active session, either a decryption verified an
entered master password along the way, or some `ensureSession` ran, or the
session was already active at the start. -/
theorem run_isActive_source (env : Session.Env) :
    ∀ (ops : List Session.Op) (st : Session.St),
      (Session.run env st ops).1.session.isActive = true →
      Session.Event.verified ∈ (Session.run env st ops).2 ∨
      (∃ now rnd, Session.Op.ensureSession now rnd ∈ ops) ∨
      st.session.isActive = true := by
  intro ops
  induction ops with
  | nil =>
    intro st h
    right; right
    simpa [Session.run] using h
  | cons op rest ih =>
    intro st h
    simp only [Session.run] at h ⊢
    rcases ih (Session.step env st op).1 h with hv | hens | hact
    · left
      exact List.mem_append_right _ hv
    · right; left
      obtain ⟨n, r, hr⟩ := hens
      exact ⟨n, r, List.mem_cons_of_mem _ hr⟩
    · cases op with
      | ensureSession n r =>
        right; left
        exact ⟨n, r, List.mem_cons_self _ _⟩
      | getWallet a pw =>
        rcases hdec : Session.decryptWallet env st a pw with m | k <;>
          simp only [Session.step, hdec] at hact <;>
          exact Or.inr (Or.inr hact)
      | getWalletFresh a pw now =>
        rcases hdec : Session.decryptWallet env st a pw with m | k
        · simp only [Session.step, hdec] at hact
          exact Or.inr (Or.inr hact)
        · left
          apply List.mem_append_left
          simp [Session.step, hdec]
      | getWalletFromSession a now =>
        rcases hmk : st.session.masterKey with _ | mk
        · simp only [Session.step, hmk] at hact
          exact Or.inr (Or.inr hact)
        · rcases hdec : Session.decryptWallet env st a mk with m | k
          · simp only [Session.step, hmk, hdec] at hact
            exact Or.inr (Or.inr hact)
          · simp only [Session.step, hmk, hdec] at hact
            right; right
            split at hact
            · simpa using hact
            · exact hact
      | storeWallet a pw priKey =>
        rcases hk : env.keytar with _ | _ | m <;>
          simp only [Session.step, hk] at hact <;>
          exact Or.inr (Or.inr hact)
      | clearSession =>
        simp [Session.step] at hact

/-- C4 (amended): in every reachable state of the manager, an active
session implies that either some decryption verified an entered master
password, or `ensureSession` ran — and `ensureSession` activates a session
with a random key and no verification whatsoever (see the
counterexample). -/
theorem C4_amended_theorem (env : Session.Env)
    (wallets : List (Str × Session.EncryptedData)) (ops : List Session.Op)
    (h : (Session.run env (Session.initSt wallets) ops).1.session.isActive =
      true) :
    Session.Event.verified ∈ (Session.run env (Session.initSt wallets) ops).2 ∨
    ∃ now rnd, Session.Op.ensureSession now rnd ∈ ops := by
  rcases run_isActive_source env ops (Session.initSt wallets) h with hv | he | hact
  · exact Or.inl hv
  · exact Or.inr he
  · exact absurd hact (by simp [Session.initSt, Session.initialSession])

/-- Witness for C4: the amended theorem applied to the single-operation
run of the counterexample. -/
theorem C4_witness :
    Session.Event.verified ∈
      (Session.run env0 (Session.initSt []) [.ensureSession 0 []]).2 ∨
    ∃ now rnd,
      Session.Op.ensureSession now rnd ∈ [Session.Op.ensureSession 0 []] :=
  C4_amended_theorem env0 [] [.ensureSession 0 []] (by decide)

/-- An active, unexpired session holding a cached key. -/
def sessionLive : Session.Session :=
  { lastActivity := some 1000, timeout := 60000,
    masterKey := some "pw".data, isActive := true }

/-- A state with `sessionLive` and one stored wallet encrypted under the
cached password. -/
def stLive : Session.St :=
  { session := sessionLive, keytarStore := [], fileStore := [],
    walletStore := [("addr".data, ⟨"pw".data, "k1".data⟩)] }

/-- C5 (counterexample): with an active session one second into its
60-second window (`isSessionValid` is `true`), `getWallet` still prompts
for the master password; and retrieval immediately after a successful
store prompts again — the cached-key path exists only in the separate
`getWalletFromSession`, which `getWallet` never calls. -/
theorem C5_counterexample :
    Session.isSessionValid sessionLive 2000 = true ∧
    (Session.step env0 stLive (.getWallet "addr".data "pw".data)).2.1 =
      [.prompted, .verified] ∧
    (Session.run env0 (Session.initSt [])
        [.storeWallet "a".data "pw".data "k".data,
         .getWallet "a".data "pw".data]).2 =
      [.prompted, .prompted, .verified] := by
  refine ⟨by decide, by decide, by decide⟩

/-- C5 (amended): `getWallet` prompts on every call and neither reads nor
updates the session, whatever the session state — the code comments "For
now, always ask for master password" and leaves session use to
`getWalletFromSession`. -/
theorem C5_amended_theorem (env : Session.Env) (st : Session.St)
    (a pw : Str) :
    Session.Event.prompted ∈ (Session.step env st (.getWallet a pw)).2.1 ∧
    (Session.step env st (.getWallet a pw)).1 = st := by
  rcases hdec : Session.decryptWallet env st a pw with m | k <;>
    simp [Session.step, hdec]

/-- A process whose native keytar fails with a capability (D-Bus) error. -/
def envCap : Session.Env := ⟨false, .capabilityError⟩

/-- C6 (counterexample): under a capability failure of the native secret
service, storing a wallet secret surfaces the error to the caller and
writes nothing to the file fallback — `storeWallet` uses
`keytar.setPassword` directly instead of `safeKeytarSet`. -/
theorem C6_counterexample :
    (Session.step envCap (Session.initSt [])
        (.storeWallet "a".data "pw".data "k".data)).2.2 =
      .error "D-Bus error".data ∧
    (Session.step envCap (Session.initSt [])
        (.storeWallet "a".data "pw".data "k".data)).1.fileStore = [] := by
  refine ⟨by decide, by decide⟩

/-- C6 (amended): the `safeKeytar*` wrappers (used for the `network:`,
`address:` and `config:` namespaces) recover a capability failure by
retrying against the file fallback within the same invocation; but the
`wallet:` namespace operations (`storeWallet` / `decryptWallet`) call
keytar directly and surface the failure to the caller. -/
theorem C6_amended_theorem (env : Session.Env) (st : Session.St)
    (hcap : env.keytar = .capabilityError) :
    (∀ k v, Session.safeKeytarSet env st k v =
      .ok (Session.fileBasedSet st k v)) ∧
    (∀ k, Session.safeKeytarGet env st k =
      .ok (Session.fileBasedGet st k)) ∧
    (∀ k, Session.safeKeytarDelete env st k =
      .ok (Session.fileBasedDelete st k)) ∧
    (∀ a pw priKey, (Session.step env st (.storeWallet a pw priKey)).2.2 =
      .error "D-Bus error".data) ∧
    (∀ a pw, Session.decryptWallet env st a pw =
      .error "D-Bus error".data) := by
  refine ⟨?_, ?_, ?_, ?_, ?_⟩
  · intro k v
    by_cases hl : env.isLinuxWithoutDisplay = true <;>
      simp [Session.safeKeytarSet, hl, hcap]
  · intro k
    by_cases hl : env.isLinuxWithoutDisplay = true <;>
      simp [Session.safeKeytarGet, hl, hcap]
  · intro k
    by_cases hl : env.isLinuxWithoutDisplay = true <;>
      simp [Session.safeKeytarDelete, hl, hcap]
  · intro a pw priKey
    simp [Session.step, hcap]
  · intro a pw
    simp [Session.decryptWallet, hcap]

/-- Witness for C6: the amended theorem applied at the capability-failing
environment and the fresh state. -/
theorem C6_witness :
    (Session.step envCap (Session.initSt [])
        (.storeWallet "x".data "pw".data "k".data)).2.2 =
      .error "D-Bus error".data :=
  (C6_amended_theorem envCap (Session.initSt []) (by decide)).2.2.2.1
    "x".data "pw".data "k".data

end Psce.Claims

namespace Psce.Claims

open Psce Psce.Wallet Psce.WalletLemmas Psce.Base58 Psce.HexLemmas

/-- The valid derived address used by the C7 cases. -/
def addrPR : Str := convertToBase58 pubG (some "PR".data)

/-- Flip the lowest bit of the last byte (a one-byte checksum
corruption). -/
def flipLastByte (l : List Nat) : List Nat :=
  l.dropLast ++ [(l.getLast?.getD 0) ^^^ 1]

/-- The valid address with its final checksum byte flipped, re-encoded. -/
def addrFlip : Str := "PR".data ++ b58Encode (flipLastByte (finalData pubG))

/-- The valid address truncated by one character. -/
def addrTrunc : Str := addrPR.dropLast

/-- C7: `isValidAddress` is a total boolean function in this embedding (the
decode failure that would throw in JavaScript is the `none` branch of the
`catch`), accepts the intact derived address, and returns `false` on the
empty string, on arbitrary ASCII, on the address with one checksum byte
flipped, and on the address truncated by one character. -/
theorem C7_theorem :
    isValidAddress [] = false ∧
    isValidAddress "hello world!".data = false ∧
    isValidAddress addrPR = true ∧
    isValidAddress addrFlip = false ∧
    isValidAddress addrTrunc = false := by
  refine ⟨by decide, by decide, by decide, by decide, by decide⟩

/-- C8: for every 32-byte lower-case-hex private-scalar text, the phrase
produced by `getMnemonic` converts back through `mnemonicToEntropy` (the
conversion `rescuePrivateKey` performs) to exactly the original text, and
whenever `rescuePrivateKey` succeeds on that phrase its returned private
key is the original scalar: the entropy-to-phrase mapping is lossless. -/
theorem C8_theorem (x : Str)
    (hlh : ∀ c ∈ x, Bip39Lemmas.isLowerHex c = true)
    (hlen : x.length = 64) :
    ∃ m, WalletMnemonic.getMnemonic x = .ok m ∧
      Psce.Bip39.mnemonicToEntropy m = .ok x ∧
      ∀ cp r, WalletMnemonic.rescuePrivateKey m cp = .ok r → r.1 = x := by
  have hlt : ∀ b ∈ hexToBytesJS x, b < 256 := hexToBytesJS_lt x
  have hround : Psce.bytesToHex (hexToBytesJS x) = x :=
    Bip39Lemmas.bytesToHex_hexToBytesJS x hlh (by omega)
  have hlen32 : (hexToBytesJS x).length = 32 := by
    have h2 := congrArg List.length hround
    rw [Bip39Lemmas.bytesToHex_length] at h2
    omega
  have hcond : ¬((hexToBytesJS x).length < 16 ∨
      32 < (hexToBytesJS x).length ∨ (hexToBytesJS x).length % 4 ≠ 0) := by
    omega
  have hok : Psce.Bip39.entropyToMnemonic x = .ok
      ((Psce.Bip39.chunks11 (Psce.Bip39.bytes2Bits (hexToBytesJS x) ++
        Psce.Bip39.checksumBits (hexToBytesJS x))).map Psce.Bip39.wordAt) := by
    simp only [Psce.Bip39.entropyToMnemonic]
    rw [if_neg hcond]
  have hback : Psce.Bip39.mnemonicToEntropy
      ((Psce.Bip39.chunks11 (Psce.Bip39.bytes2Bits (hexToBytesJS x) ++
        Psce.Bip39.checksumBits (hexToBytesJS x))).map Psce.Bip39.wordAt) =
      .ok x := by
    rw [Bip39Lemmas.mnemonicToEntropy_entropyWords (hexToBytesJS x)
      (by omega) (by omega) (by omega) hlt, hround]
  refine ⟨_, ?_, hback, ?_⟩
  · rw [WalletMnemonic.getMnemonic, hok]
  · intro cp r hr
    rw [WalletMnemonic.rescuePrivateKey, hback] at hr
    have hr2 : (match Secp256k1.getPubKeyFromPrivate x with
        | none =>
          Except.error "There is an error. Check your mnemonic words!".data
        | some pubKey => Except.ok (x, convertToBase58 pubKey cp)) =
        Except.ok r := hr
    rcases hp : Secp256k1.getPubKeyFromPrivate x with _ | pub <;>
      rw [hp] at hr2
    · simp at hr2
    · simp only [Except.ok.injEq] at hr2
      subst hr2
      rfl

/-- Witness for C8: the round trip at the scalar-1 private key. -/
theorem C8_witness :
    (∀ c ∈ priv1, Bip39Lemmas.isLowerHex c = true) ∧ priv1.length = 64 ∧
    ∃ m, WalletMnemonic.getMnemonic priv1 = .ok m ∧
      Psce.Bip39.mnemonicToEntropy m = .ok priv1 ∧
      ∀ cp r, WalletMnemonic.rescuePrivateKey m cp = .ok r → r.1 = priv1 :=
  ⟨by decide, by decide, C8_theorem priv1 (by decide) (by decide)⟩

/-- A 16-byte (not 32-byte) entropy input in hex. -/
def e16 : Str := "00000000000000000000000000000000".data

/-- C9 (counterexample): `getMnemonic` accepts the 16-byte input and
produces a 12-word phrase — not an error, and not a 24-word phrase. -/
theorem C9_counterexample :
    (WalletMnemonic.getMnemonic e16).map List.length = .ok 12 := by
  decide

theorem chunks11_entropy_length (bs : List Nat)
    (hub : bs.length ≤ 32) (hm4 : bs.length % 4 = 0) :
    (Psce.Bip39.chunks11 (Psce.Bip39.bytes2Bits bs ++
      Psce.Bip39.checksumBits bs)).length = 3 * (bs.length / 4) := by
  have hbits2 : ∀ d ∈ Psce.Bip39.bytes2Bits bs ++
      Psce.Bip39.checksumBits bs, d < 2 := by
    intro d hd
    rcases List.mem_append.mp hd with h | h
    · exact Bip39Lemmas.bytes2Bits_lt bs d h
    · rw [Psce.Bip39.checksumBits] at h
      exact Bip39Lemmas.bytes2Bits_lt _ d (List.take_subset _ _ h)
  have hcslen : (Psce.Bip39.checksumBits bs).length = bs.length / 4 := by
    rw [Psce.Bip39.checksumBits, List.length_take,
      Bip39Lemmas.bytes2Bits_length, Sha256.sha256_length]
    omega
  have hblen : (Psce.Bip39.bytes2Bits bs ++
      Psce.Bip39.checksumBits bs).length = 33 * (bs.length / 4) := by
    rw [List.length_append, Bip39Lemmas.bytes2Bits_length, hcslen]
    omega
  have hb11 : (Psce.Bip39.bytes2Bits bs ++
      Psce.Bip39.checksumBits bs).length % 11 = 0 := by omega
  have h1 := Bip39Lemmas.flatMap_toBitsW11_length
    (Psce.Bip39.chunks11 (Psce.Bip39.bytes2Bits bs ++
      Psce.Bip39.checksumBits bs))
  rw [Bip39Lemmas.chunks11_flat _ hbits2 hb11] at h1
  omega

/-- C9 (amended): `getMnemonic` succeeds exactly on hex inputs parsing to
16–32 bytes in 4-byte steps (the BIP-39 entropy range of the `bip39`
dependency), producing `3·(bytes/4)` words — 12 to 24, with 24 words only
for 32-byte scalars; every other input gets the error result. -/
theorem C9_amended_theorem (x : Str) :
    (16 ≤ (hexToBytesJS x).length → (hexToBytesJS x).length ≤ 32 →
      (hexToBytesJS x).length % 4 = 0 →
      (WalletMnemonic.getMnemonic x).map List.length =
        .ok (3 * ((hexToBytesJS x).length / 4))) ∧
    ((hexToBytesJS x).length < 16 ∨ 32 < (hexToBytesJS x).length ∨
      (hexToBytesJS x).length % 4 ≠ 0 →
      WalletMnemonic.getMnemonic x =
        .error "There is an error. Check your private key!".data) := by
  constructor
  · intro h16 h32 h4
    have hok : Psce.Bip39.entropyToMnemonic x = .ok
        ((Psce.Bip39.chunks11 (Psce.Bip39.bytes2Bits (hexToBytesJS x) ++
          Psce.Bip39.checksumBits (hexToBytesJS x))).map
            Psce.Bip39.wordAt) := by
      simp only [Psce.Bip39.entropyToMnemonic]
      rw [if_neg (by omega)]
    rw [WalletMnemonic.getMnemonic, hok]
    have hlen := chunks11_entropy_length (hexToBytesJS x) h32 h4
    simp only [Except.map, List.length_map, hlen]
  · intro hbad
    have herr : Psce.Bip39.entropyToMnemonic x =
        .error "Invalid entropy".data := by
      simp only [Psce.Bip39.entropyToMnemonic]
      rw [if_pos (by omega)]
    rw [WalletMnemonic.getMnemonic, herr]

/-- Witness for C9: the amended theorem applied at the 32-byte scalar-1
input, where the phrase has 24 words. -/
theorem C9_witness :
    (WalletMnemonic.getMnemonic priv1).map List.length = .ok 24 :=
  (C9_amended_theorem priv1).1 (by decide) (by decide) (by decide)

/-- C10: `isAddressForNetwork` answers `true` only when the expected
prefix is exactly the first two characters of the address
(`getAddressPrefix` always takes two characters, and cannot throw on a
valid address since validity forces at least two characters); hence for
every expected prefix whose length is not 2 — including the recognized
prefix `"CHAIN"` — it returns `false` on every address. -/
theorem C10_theorem :
    (∀ a e, isAddressForNetwork a e = .ok true →
      isValidAddress a = true ∧ e = a.take 2) ∧
    (∀ a e, e.length ≠ 2 → isAddressForNetwork a e = .ok false) := by
  constructor
  · intro a e h
    rw [isAddressForNetwork] at h
    by_cases hv : isValidAddress a = true
    · rw [if_pos hv] at h
      have hlen := isValidAddress_length a hv
      rw [getAddressPrefix, if_neg (by omega)] at h
      simp only [Except.map, Except.ok.injEq] at h
      exact ⟨hv, (eq_of_beq h).symm⟩
    · rw [if_neg hv] at h
      simp at h
  · intro a e he
    rw [isAddressForNetwork]
    by_cases hv : isValidAddress a = true
    · rw [if_pos hv]
      have hlen := isValidAddress_length a hv
      rw [getAddressPrefix, if_neg (by omega)]
      simp only [Except.map]
      have hne : (a.take 2 == e) = false := by
        rcases hb : (a.take 2 == e) with _ | _
        · rfl
        · exfalso
          have heq := eq_of_beq hb
          have h2 : e.length = 2 := by
            rw [← heq, List.length_take]
            omega
          omega
      rw [hne]
    · rw [if_neg hv]

/-- Witness for C10: the recognized five-character prefix `"CHAIN"` can
never match, even on a valid CHAIN-prefixed address. -/
theorem C10_witness :
    isAddressForNetwork (convertToBase58 pubG (some "CHAIN".data))
      "CHAIN".data = .ok false :=
  C10_theorem.2 (convertToBase58 pubG (some "CHAIN".data)) "CHAIN".data
    (by decide)

end Psce.Claims
